import Mathlib

/-!
# Graph construction and traversal (massenz/algos)

A shallow embedding of `graph/graph.go` and `common/queue.go`.

* A Go map is an association list; a lookup returns the first binding of a key.
  The node pointers stored in `Vertices` are not nil; a nil `*Node` only arises
  from the lookup of an absent key and is `none`.
* A set-as-map (`Node.Children`, `discovered`, `visited`) is the list of its keys;
  the order of the list is the order in which `range` enumerates the map. A
  statement about every graph is thus a statement about every enumeration order,
  and `Graph.SameMaps` relates two enumerations of the same maps.
* The `visit` callback is observed through the sequence of nodes it is called on.
* The recursion of `dfs` and the `for` loop of `BFS` are bounded by fuel; a Go
  `panic` and the exhaustion of fuel are distinct outcomes.
-/

namespace common

/-- The outcome of running a piece of Go code: a value, a `panic`, or no answer
within the fuel that was given. -/
inductive Res (α : Type) where
  | ok (a : α)
  | panic (msg : String)
  | outOfFuel
  deriving DecidableEq, Repr

/-- Sequencing: a `panic` or the exhaustion of fuel ends the run. -/
def Res.bind {α β : Type} : Res α → (α → Res β) → Res β
  | .ok a, f => f a
  | .panic msg, _ => .panic msg
  | .outOfFuel, _ => .outOfFuel

/-- The result of a function applied to the value of a run. -/
def Res.map {α β : Type} (f : α → β) : Res α → Res β
  | .ok a => .ok (f a)
  | .panic msg => .panic msg
  | .outOfFuel => .outOfFuel

/-- The value of `QueueFullError`. -/
def QueueFullError : String := "queue is full"

/-- A `Queue` is a FIFO queue based on a list that has a fixed capacity. -/
structure Queue (α : Type) where
  Capacity : Int
  Items : List α
  deriving DecidableEq, Repr

/-- `NewQueue(capacity)`: `make([]interface{}, 0, capacity)` panics on a negative
capacity and on one above `maxCap`, the largest capacity of a slice of interface
values that the Go runtime makes on the platform (its allocation limit divided by
the size of an interface value); `maxCap` is a constant of the runtime and is taken
as a parameter. -/
def NewQueue {α : Type} (maxCap : Int) (capacity : Int) : Res (Queue α) :=
  if capacity < 0 ∨ maxCap < capacity then
    .panic "runtime error: makeslice: cap out of range"
  else .ok { Capacity := capacity, Items := [] }

def Queue.IsEmpty {α : Type} (q : Queue α) : Bool :=
  q.Items.length == 0

def Queue.IsFull {α : Type} (q : Queue α) : Bool :=
  (q.Items.length : Int) == q.Capacity

/-- `Enqueue(item)`: the queue afterwards and the returned error (`none` is `nil`). -/
def Queue.Enqueue {α : Type} (q : Queue α) (item : α) : Queue α × Option String :=
  if q.IsFull then (q, some QueueFullError)
  else ({ q with Items := q.Items ++ [item] }, none)

/-- `Dequeue()`: the queue afterwards and the returned item (`none` is `nil`). -/
def Queue.Dequeue {α : Type} (q : Queue α) : Queue α × Option α :=
  if q.IsEmpty then (q, none)
  else
    match q.Items with
    | [] => (q, none)
    | item :: rest => ({ q with Items := rest }, some item)

/-- `Peek()`: the head item, `none` (`nil`) on an empty queue. -/
def Queue.Peek {α : Type} (q : Queue α) : Option α :=
  if q.IsEmpty then none
  else q.Items.head?

/-- The limit `maxCap` of `NewQueue` on a 64-bit platform: an address space of
`2^48` bytes and 16 bytes for an interface value, `2^44` in all. -/
def maxCap64 : Int := 17592186044416

/-- A call on a queue. -/
inductive QueueOp (α : Type) where
  | enqueue (item : α)
  | dequeue
  | peek

/-- The queue after a call. -/
def Queue.step {α : Type} (q : Queue α) : QueueOp α → Queue α
  | .enqueue item => (q.Enqueue item).1
  | .dequeue => q.Dequeue.1
  | .peek => q

/-- The queue after a sequence of calls. -/
def Queue.run {α : Type} (q : Queue α) (ops : List (QueueOp α)) : Queue α :=
  ops.foldl Queue.step q

/-- `Enqueue` called on each of the items in turn: the queue afterwards and the
errors returned. -/
def Queue.enqueueAll {α : Type} (q : Queue α) : List α → Queue α × List (Option String)
  | [] => (q, [])
  | x :: xs => (((q.Enqueue x).1.enqueueAll xs).1, (q.Enqueue x).2 :: ((q.Enqueue x).1.enqueueAll xs).2)

/-- `Dequeue` called `n` times: the queue afterwards and the items returned. -/
def Queue.dequeueN {α : Type} (q : Queue α) : Nat → Queue α × List (Option α)
  | 0 => (q, [])
  | n + 1 => ((q.Dequeue.1.dequeueN n).1, q.Dequeue.2 :: (q.Dequeue.1.dequeueN n).2)

end common

namespace graph

open common

/-- `type Kind string`. -/
abbrev Kind := String

def Directed : Kind := "directed"

def Undirected : Kind := "undirected"

/-- A node: its name and the set of its children names, in enumeration order. -/
structure Node where
  Name : String
  Children : List String
  deriving DecidableEq, Repr

/-- The parsed adjacency list: `Vertices` lists the records in the order in which
`range` hands them out. -/
structure AdjacencyList where
  Vertices : List (String × List String)
  Kind : graph.Kind
  Root : String
  deriving DecidableEq, Repr

/-- The graph with its traversal state; the field `Type` of the source is written
`Type_`. -/
structure Graph where
  Vertices : List (String × Node)
  Size : Int
  Type_ : Kind
  discovered : List String
  visited : List String
  hasCycles : Bool
  deriving DecidableEq, Repr

/-- Reading a Go map: the value bound to `k`, if any. -/
def mapGet {V : Type} : List (String × V) → String → Option V
  | [], _ => none
  | (k', v) :: rest, k => if k' = k then some v else mapGet rest k

/-- `g.Vertices[name]`: the node pointer, `none` when the key is absent (`nil`). -/
def Graph.node (g : Graph) (name : String) : Option Node :=
  mapGet g.Vertices name

/-- `m[k] = true` (or `m[k] = nil`) on a set-as-map. -/
def setAdd (s : List String) (k : String) : List String :=
  if k ∈ s then s else s ++ [k]

/-- `HasCycles()`. -/
def Graph.HasCycles (g : Graph) : Bool :=
  g.hasCycles

/-- The `for child := range node.Children` loop of `dfs`, over the children still
to be enumerated; `rec` is the recursive call `g.dfs`. The second component of the
state is what the calls of `visit` have made of the state of the caller; in `dfs`
it is the sequence of nodes `visit` was called on. -/
def dfsChildren {σ : Type} (rec : Option Node → Graph × σ → Res (Graph × σ)) :
    List String → Graph × σ → Res (Graph × σ)
  | [], w => .ok w
  | child :: rest, (g, calls) =>
    let g1 := { g with discovered := setAdd g.discovered child }
    if child ∈ g.discovered then
      if g.Type_ = Undirected then
        dfsChildren rec rest ({ g with hasCycles := true }, calls)
      else if g.Type_ = Directed ∧ child ∉ g.visited then
        dfsChildren rec rest ({ g with hasCycles := true }, calls)
      else
        (rec (g1.node child) (g1, calls)).bind (dfsChildren rec rest)
    else
      (rec (g1.node child) (g1, calls)).bind (dfsChildren rec rest)

/-- The recursive `dfs`: `none` is a nil `*Node`, whose `Children` cannot be read. -/
def dfs : Nat → Option Node → Graph × List Node → Res (Graph × List Node)
  | 0, _, _ => .outOfFuel
  | _ + 1, none, _ =>
    .panic "runtime error: invalid memory address or nil pointer dereference"
  | fuel + 1, some node, w =>
    (dfsChildren (dfs fuel) node.Children w).bind fun w1 => .ok (w1.1, w1.2 ++ [node])

/-- `DFS(start, visit)`: the graph afterwards and the nodes `visit` was called on. -/
def DFS (fuel : Nat) (g : Graph) (start : String) : Res (Graph × List Node) :=
  let g0 := { g with discovered := [], visited := [] }
  match g0.node start with
  | none => .panic "Start node not found"
  | some _ =>
    let g1 := { g0 with discovered := setAdd g0.discovered start }
    dfs fuel (g1.node start) (g1, [])

/-- The `for child := range node.Children` loop of `BFS`. -/
def bfsChildren :
    List String → Graph × Queue (Option Node) → Res (Graph × Queue (Option Node))
  | [], w => .ok w
  | child :: rest, (g, queue) =>
    if child ∈ g.discovered then bfsChildren rest (g, queue)
    else
      let g1 := { g with discovered := setAdd g.discovered child }
      match queue.Enqueue (g1.node child) with
      | (queue1, none) => bfsChildren rest (g1, queue1)
      | (_, some err) => .panic ("Unexpected error enqueuing child node: " ++ err)

/-- The `for !queue.IsEmpty()` loop of `BFS`. -/
def bfsLoop : Nat → Graph × Queue (Option Node) × List Node → Res (Graph × List Node)
  | 0, _ => .outOfFuel
  | fuel + 1, (g, queue, calls) =>
    if queue.IsEmpty then .ok (g, calls)
    else
      match queue.Dequeue with
      | (_, none) => .panic "interface conversion: interface {} is nil, not *graph.Node"
      | (_, some none) => .panic "Unexpected nil Node from a non-empty queue"
      | (queue1, some (some node)) =>
        (bfsChildren node.Children (g, queue1)).bind fun w =>
          bfsLoop fuel ({ w.1 with visited := setAdd w.1.visited node.Name }, w.2,
            calls ++ [node])

/-- `BFS(start, visit)`: the graph afterwards and the nodes `visit` was called on;
`maxCap` is the limit of `NewQueue`. -/
def BFS (maxCap : Int) (fuel : Nat) (g : Graph) (start : String) :
    Res (Graph × List Node) :=
  match (NewQueue maxCap g.Size : Res (Queue (Option Node))) with
  | .panic msg => .panic msg
  | .outOfFuel => .outOfFuel
  | .ok queue =>
    let g0 := { g with discovered := [], visited := [] }
    match g0.node start with
    | none => .panic "Start node not found"
    | some _ =>
      let g1 := { g0 with discovered := setAdd g0.discovered start }
      match queue.Enqueue (g1.node start) with
      | (_, some err) => .panic err
      | (queue1, none) => bfsLoop fuel (g1, queue1, [])

/-- `g.Vertices[name]`, created with no children (and counted in `Size`) when the
name is not yet a key. -/
def addVertex (g : Graph) (name : String) : Graph :=
  match g.node name with
  | some _ => g
  | none =>
    { g with
      Vertices := g.Vertices ++ [(name, { Name := name, Children := [] })]
      Size := g.Size + 1 }

/-- `g.Vertices[name].Children[child] = nil`. -/
def addChild (g : Graph) (name child : String) : Graph :=
  { g with
    Vertices := g.Vertices.map fun e =>
      if e.1 = name then (e.1, { e.2 with Children := setAdd e.2.Children child }) else e }

/-- The inner loop of `FromAdjacencyList` over the neighbours listed for `name`. -/
def addEdges (name : String) : List String → Graph → Graph
  | [], g => g
  | adjNodeName :: rest, g =>
    let g1 := addVertex g adjNodeName
    let g2 := addChild g1 name adjNodeName
    let g3 := if g2.Type_ = Undirected then addChild g2 adjNodeName name else g2
    addEdges name rest g3

/-- `FromAdjacencyList(adjList)`; the returned error is always `nil`. -/
def FromAdjacencyList (adjList : AdjacencyList) : Graph :=
  adjList.Vertices.foldl
    (fun g record => addEdges record.1 record.2 (addVertex g record.1))
    { Vertices := [], Size := 0, Type_ := adjList.Kind,
      discovered := [], visited := [], hasCycles := false }

/-! ### Vocabulary of the statements -/

/-- The keys of `g.Vertices`. -/
def Graph.keys (g : Graph) : List String :=
  g.Vertices.map Prod.fst

/-- The name `k` is a key of `g.Vertices`. -/
def Graph.IsKey (g : Graph) (k : String) : Prop :=
  k ∈ g.keys

/-- A child edge: `v` is in the `Children` of the node stored under `u`. -/
def Graph.Edge (g : Graph) (u v : String) : Prop :=
  ∃ n, g.node u = some n ∧ v ∈ n.Children

/-- The node `v` can be reached from `u` along child edges. -/
def Graph.Reachable (g : Graph) (u v : String) : Prop :=
  Relation.ReflTransGen g.Edge u v

/-- Every child name is a key of `Vertices`. -/
def Graph.Closed (g : Graph) : Prop :=
  ∀ u v, g.Edge u v → g.IsKey v

/-- The kind is one of the two constants. -/
def Graph.KindOK (g : Graph) : Prop :=
  g.Type_ = Directed ∨ g.Type_ = Undirected

/-- The calls of `visit` were made, in this order, on the nodes stored under `ks`. -/
def Graph.VisitedAt (g : Graph) (ks : List String) (calls : List Node) : Prop :=
  List.Forall₂ (fun k n => g.node k = some n) ks calls

/-- The same Go value as `h`, its maps enumerated in some other order: the same
kind, size and cycle flag, the same keys, and under each key a node of the same
name with the same set of children. -/
def Graph.SameMaps (g h : Graph) : Prop :=
  g.Type_ = h.Type_ ∧ g.Size = h.Size ∧ g.hasCycles = h.hasCycles ∧
  (∀ k, g.IsKey k ↔ h.IsKey k) ∧
  ∀ k a b, g.node k = some a → h.node k = some b →
    a.Name = b.Name ∧ a.Children.Perm b.Children

/-- What `FromAdjacencyList` maintains while it builds a graph. -/
structure Built (g : Graph) : Prop where
  nodup : g.keys.Nodup
  size : g.Size = g.Vertices.length
  name : ∀ k n, g.node k = some n → n.Name = k
  closed : g.Closed
  childrenNodup : ∀ k n, g.node k = some n → n.Children.Nodup

/-- One round of the inner loop of `FromAdjacencyList`. -/
def addEdge (g : Graph) (name adjNodeName : String) : Graph :=
  let g2 := addChild (addVertex g adjNodeName) name adjNodeName
  if g2.Type_ = Undirected then addChild g2 adjNodeName name else g2

/-- One round of the outer loop of `FromAdjacencyList`. -/
def addRecord (g : Graph) (record : String × List String) : Graph :=
  addEdges record.1 record.2 (addVertex g record.1)

/-- The graph `FromAdjacencyList` starts from. -/
def emptyGraph (kind : Kind) : Graph :=
  { Vertices := [], Size := 0, Type_ := kind,
    discovered := [], visited := [], hasCycles := false }

/-- The graph in the course of a DFS, in which only `discovered` and `hasCycles`
change and `visited` stays empty. -/
def Graph.during (g : Graph) (d : List String) (h : Bool) : Graph :=
  { g with discovered := d, visited := [], hasCycles := h }

/-- The number of keys not yet discovered. -/
def Graph.undiscovered (g : Graph) (d : List String) : Nat :=
  (g.keys.filter fun k => k ∉ d).length

/-- The loop of `dfs` as a relation, for a kind that is one of the two constants and
an empty `visited`: `Explore g cs d h d' h' ks` runs the loop over the children `cs`
from the discovered set `d` and the cycle flag `h`, ends with `d'` and `h'`, and
calls `visit` on the nodes stored under `ks`, in this order. -/
inductive Explore (g : Graph) :
    List String → List String → Bool → List String → Bool → List String → Prop
  | done (d : List String) (h : Bool) : Explore g [] d h d h []
  | seen (c : String) (cs d : List String) (h : Bool) (d' : List String) (h' : Bool)
      (ks : List String) :
      c ∈ d → Explore g cs d true d' h' ks → Explore g (c :: cs) d h d' h' ks
  | fresh (c : String) (cs : List String) (n : Node) (d : List String) (h : Bool)
      (d1 : List String) (h1 : Bool) (ks1 d' : List String) (h' : Bool)
      (ks2 : List String) :
      c ∉ d → g.node c = some n → Explore g n.Children (d ++ [c]) h d1 h1 ks1 →
      Explore g cs d1 h1 d' h' ks2 → Explore g (c :: cs) d h d' h' (ks1 ++ c :: ks2)

/-- Every edge that leaves a node of `ks` leads to a node that stands earlier in
`ks`. -/
def Graph.GoBack (g : Graph) (ks : List String) : Prop :=
  ∀ pre x post, ks = pre ++ x :: post → ∀ y, g.Edge x y → y ∈ pre

/-- Whether every child name is a key, by inspection of the vertices. -/
def Graph.closedCheck (g : Graph) : Bool :=
  g.Vertices.all fun e => e.2.Children.all fun c => decide (c ∈ g.keys)

/-- The graph of the DFS test: `node1` with the child `node2`, directed. -/
def testGraph : Graph :=
  { Vertices := [("node1", { Name := "node1", Children := ["node2"] }),
                 ("node2", { Name := "node2", Children := [] })],
    Size := 0, Type_ := Directed, discovered := [], visited := [], hasCycles := false }

/-- The adjacency list `{node1: [node2]}`, directed. -/
def pairList : AdjacencyList :=
  { Vertices := [("node1", ["node2"])], Kind := Directed, Root := "" }

/-- A directed acyclic adjacency list with a cross edge: `{A: [B, C], B: [C]}`. -/
def diamondList : AdjacencyList :=
  { Vertices := [("A", ["B", "C"]), ("B", ["C"])], Kind := Directed, Root := "" }

/-- The undirected tree with the single edge `A - B`. -/
def edgeList : AdjacencyList :=
  { Vertices := [("A", ["B"])], Kind := Undirected, Root := "" }

/-- A rank that decreases along every edge of `diamondList`. -/
def diamondRank (k : String) : Nat :=
  if k = "A" then 2 else if k = "B" then 1 else 0

/-- The graph with its cycle flag set to `h`. -/
def Graph.setFlag (g : Graph) (h : Bool) : Graph :=
  { g with hasCycles := h }

/-- The state of a traversal with `h` or-ed into the cycle flag. -/
def orFlag (h : Bool) (w : Graph × List Node) : Graph × List Node :=
  (w.1.setFlag (h || w.1.hasCycles), w.2)

/-- A directed graph with two components, one of them a self-loop. -/
def loopList : AdjacencyList :=
  { Vertices := [("A", ["A"]), ("B", [])], Kind := Directed, Root := "" }

/-- The cycle flag that `HasCycles()` returns after a traversal. -/
def flagAfter (r : Res (Graph × List Node)) : Res Bool :=
  r.map fun w => w.1.HasCycles

/-- The graph built from `diamondList` with the children of `A` enumerated in the
other order. -/
def diamondGraphSwapped : Graph :=
  { FromAdjacencyList diamondList with
    Vertices := [("A", { Name := "A", Children := ["C", "B"] }),
                 ("B", { Name := "B", Children := ["C"] }),
                 ("C", { Name := "C", Children := [] })] }

/-- The directed cyclic adjacency list `{A: [B], B: [A]}`. -/
def cycleList : AdjacencyList :=
  { Vertices := [("A", ["B"]), ("B", ["A"])], Kind := Directed, Root := "" }

/-- The graph in the course of a BFS, in which only `discovered` and `visited`
change. -/
def Graph.bfsState (g : Graph) (d v : List String) : Graph :=
  { g with discovered := d, visited := v }

/-- The children in `cs` that the loop of `BFS` discovers, starting from the
discovered set `d`, in the order of their discovery. -/
def newKeys : List String → List String → List String
  | _, [] => []
  | d, c :: cs => if c ∈ d then newKeys d cs else c :: newKeys (d ++ [c]) cs

/-- The state of a BFS in terms of keys: the discovered keys, the keys of the queued
nodes and the keys of the visited nodes, each in order. -/
structure BState where
  d : List String
  Q : List String
  T : List String

/-- One round of the `for !queue.IsEmpty()` loop in terms of keys. -/
def BfsStep (g : Graph) (s s' : BState) : Prop :=
  ∃ u Qr n, s.Q = u :: Qr ∧ g.node u = some n ∧
    s' = { d := s.d ++ newKeys s.d n.Children, Q := Qr ++ newKeys s.d n.Children,
           T := s.T ++ [u] }

/-- What every round of the loop of `BFS` from `start` maintains. -/
structure BInv (g : Graph) (start : String) (s : BState) : Prop where
  eq : s.d = s.T ++ s.Q
  nodup : s.d.Nodup
  head : ∃ rest, s.d = start :: rest
  keys : ∀ x ∈ s.d, g.IsKey x
  reach : ∀ x ∈ s.d, g.Reachable start x
  closed : ∀ x ∈ s.T, ∀ y, g.Edge x y → y ∈ s.d

/-- The capacity `Size` is enough for any list of distinct keys. -/
def Graph.CapOK (g : Graph) : Prop :=
  ∀ l : List String, l.Nodup → (∀ x ∈ l, g.IsKey x) → (l.length : Int) ≤ g.Size

/-- The state in which the loop of `BFS` from `start` is entered. -/
def BState.init (start : String) : BState :=
  { d := [start], Q := [start], T := [] }

/-- A walk of `n` child edges from `u` to `v`. -/
def Graph.Walk (g : Graph) : Nat → String → String → Prop
  | 0, u, v => u = v
  | n + 1, u, v => ∃ w, Graph.Walk g n u w ∧ g.Edge w v

/-- The graph-distance from `u` to `v` is `d`: the length of a shortest walk. -/
def Graph.Dist (g : Graph) (u v : String) (d : Nat) : Prop :=
  g.Walk d u v ∧ ∀ m, g.Walk m u v → d ≤ m

/-- The function `δ` gives the distance from `start` of every reachable key. -/
def Graph.IsLevel (g : Graph) (start : String) (δ : String → Nat) : Prop :=
  ∀ x, g.Reachable start x → g.Dist start x (δ x)

/-- The order of a BFS: the discovered keys are in the order of their distance, and
the distances of two queued keys differ by one at most. -/
structure LInv (δ : String → Nat) (s : BState) : Prop where
  sorted : s.d.Pairwise fun a b => δ a ≤ δ b
  near : ∀ x ∈ s.Q, ∀ y ∈ s.Q, δ x ≤ δ y + 1

/-- Two lists of vertex records name the same vertices and list the same neighbours
for each of them: the same records processed in another order, their neighbour
entries reordered or repeated. -/
def SameRecords (l1 l2 : List (String × List String)) : Prop :=
  (∀ k, k ∈ l1.map Prod.fst ↔ k ∈ l2.map Prod.fst) ∧
  ∀ k c, (∃ r ∈ l1, r.1 = k ∧ c ∈ r.2) ↔ (∃ r ∈ l2, r.1 = k ∧ c ∈ r.2)

/-- The adjacency list `{A: [B, C], B: [C]}` with its records in the other order and
the neighbours of `A` reordered and repeated. -/
def diamondListShuffled : AdjacencyList :=
  { Vertices := [("B", ["C"]), ("A", ["C", "B", "C"])], Kind := Directed, Root := "" }

/-- `BFS` called on each of `starts` in turn; the graph is handed from one call to
the next. -/
def bfsMany (maxCap : Int) (fuel : Nat) : Graph → List String → Res Graph
  | g, [] => .ok g
  | g, start :: rest =>
    (BFS maxCap fuel g start).bind fun w => bfsMany maxCap fuel w.1 rest

/-- The adjacency list `{A: [A]}` of a document without a `kind`: the kind is the
empty string, none of the two constants. -/
def kindlessLoopList : AdjacencyList :=
  { Vertices := [("A", ["A"])], Kind := "", Root := "" }

/-- The graph `h` in whatever state a traversal has left it, its maps enumerated in
some order: the same kind and size, the same keys, and under each key a node of the
same name with the same set of children; `discovered`, `visited` and the cycle flag
are free. -/
def Graph.SameVertices (g h : Graph) : Prop :=
  g.Type_ = h.Type_ ∧ g.Size = h.Size ∧
  (∀ k, g.IsKey k ↔ h.IsKey k) ∧
  ∀ k a b, g.node k = some a → h.node k = some b →
    a.Name = b.Name ∧ a.Children.Perm b.Children

/-- The graph built from `{A: [B], B: [A]}` as `DFS` from `A` leaves it: both keys
discovered and the cycle flag set. -/
def cycleAfterDFS : Graph :=
  (FromAdjacencyList cycleList).during ["A", "B"] true

/-- The `visit` of the tests, which appends the name of the node to a list; here it
appends the node. -/
def logVisit (n : Node) (calls : List Node) : Res (List Node) :=
  .ok (calls ++ [n])

/-- The recursive `dfs` for any `visit`: a callback that works on a state `σ` of the
caller and may panic or not return. With `logVisit` it is `dfs`. -/
def dfsWith {σ : Type} (visit : Node → σ → Res σ) :
    Nat → Option Node → Graph × σ → Res (Graph × σ)
  | 0, _, _ => .outOfFuel
  | _ + 1, none, _ =>
    .panic "runtime error: invalid memory address or nil pointer dereference"
  | fuel + 1, some node, w =>
    (dfsChildren (dfsWith visit fuel) node.Children w).bind fun w1 =>
      (visit node w1.2).bind fun s => .ok (w1.1, s)

/-- `DFS(start, visit)` for any `visit`, from the state `s` of the caller. With
`logVisit` and the empty list it is `DFS`. -/
def DFSWith {σ : Type} (visit : Node → σ → Res σ) (fuel : Nat) (g : Graph)
    (start : String) (s : σ) : Res (Graph × σ) :=
  let g0 := { g with discovered := [], visited := [] }
  match g0.node start with
  | none => .panic "Start node not found"
  | some _ =>
    let g1 := { g0 with discovered := setAdd g0.discovered start }
    dfsWith visit fuel (g1.node start) (g1, s)

/-- The `for !queue.IsEmpty()` loop of `BFS` for any `visit`. With `logVisit` it is
`bfsLoop`. -/
def bfsLoopWith {σ : Type} (visit : Node → σ → Res σ) :
    Nat → Graph × Queue (Option Node) × σ → Res (Graph × σ)
  | 0, _ => .outOfFuel
  | fuel + 1, (g, queue, s) =>
    if queue.IsEmpty then .ok (g, s)
    else
      match queue.Dequeue with
      | (_, none) => .panic "interface conversion: interface {} is nil, not *graph.Node"
      | (_, some none) => .panic "Unexpected nil Node from a non-empty queue"
      | (queue1, some (some node)) =>
        (bfsChildren node.Children (g, queue1)).bind fun w =>
          (visit node s).bind fun s1 =>
            bfsLoopWith visit fuel
              ({ w.1 with visited := setAdd w.1.visited node.Name }, w.2, s1)

/-- `BFS(start, visit)` for any `visit`, from the state `s` of the caller. With
`logVisit` and the empty list it is `BFS`. -/
def BFSWith {σ : Type} (maxCap : Int) (visit : Node → σ → Res σ) (fuel : Nat)
    (g : Graph) (start : String) (s : σ) : Res (Graph × σ) :=
  match (NewQueue maxCap g.Size : Res (Queue (Option Node))) with
  | .panic msg => .panic msg
  | .outOfFuel => .outOfFuel
  | .ok queue =>
    let g0 := { g with discovered := [], visited := [] }
    match g0.node start with
    | none => .panic "Start node not found"
    | some _ =>
      let g1 := { g0 with discovered := setAdd g0.discovered start }
      match queue.Enqueue (g1.node start) with
      | (_, some err) => .panic err
      | (queue1, none) => bfsLoopWith visit fuel (g1, queue1, s)

/-- A `visit` that panics as soon as it is called. -/
def panicVisit (_ : Node) (_ : Unit) : Res Unit :=
  .panic "visit was called"

end graph

/-! ## Theorems -/

namespace common

/-! ### The bounded queue -/

theorem Queue.isFull_iff {α : Type} (q : Queue α) :
    q.IsFull = true ↔ (q.Items.length : Int) = q.Capacity := by
  unfold Queue.IsFull
  exact beq_iff_eq

theorem Queue.enqueue_full {α : Type} (q : Queue α) (item : α)
    (h : (q.Items.length : Int) = q.Capacity) :
    q.Enqueue item = (q, some QueueFullError) := by
  unfold Queue.Enqueue
  rw [if_pos ((Queue.isFull_iff q).2 h)]

theorem Queue.enqueue_room {α : Type} (q : Queue α) (item : α)
    (h : (q.Items.length : Int) ≠ q.Capacity) :
    q.Enqueue item = ({ q with Items := q.Items ++ [item] }, none) := by
  unfold Queue.Enqueue
  rw [if_neg (fun hf => h ((Queue.isFull_iff q).1 hf))]

theorem Queue.dequeue_cons {α : Type} (q : Queue α) (x : α) (rest : List α)
    (h : q.Items = x :: rest) : q.Dequeue = ({ q with Items := rest }, some x) := by
  unfold Queue.Dequeue Queue.IsEmpty
  rw [h]
  rfl

theorem Queue.dequeue_nil {α : Type} (q : Queue α) (h : q.Items = []) :
    q.Dequeue = (q, none) := by
  unfold Queue.Dequeue Queue.IsEmpty
  rw [h]
  rfl

theorem Queue.step_bounded {α : Type} (c : Int) (q : Queue α) (op : QueueOp α)
    (h : q.Capacity = c ∧ (q.Items.length : Int) ≤ c) :
    (q.step op).Capacity = c ∧ ((q.step op).Items.length : Int) ≤ c := by
  obtain ⟨hcap, hlen⟩ := h
  cases op with
  | enqueue item =>
    by_cases hf : (q.Items.length : Int) = q.Capacity
    · rw [Queue.step, Queue.enqueue_full q item hf]
      exact ⟨hcap, hlen⟩
    · rw [Queue.step, Queue.enqueue_room q item hf]
      refine ⟨hcap, ?_⟩
      simp only [List.length_append, List.length_singleton, Nat.cast_add, Nat.cast_one]
      omega
  | dequeue =>
    cases hi : q.Items with
    | nil =>
      rw [Queue.step, Queue.dequeue_nil q hi]
      exact ⟨hcap, hlen⟩
    | cons x rest =>
      rw [Queue.step, Queue.dequeue_cons q x rest hi]
      refine ⟨hcap, ?_⟩
      rw [hi] at hlen
      simp only [List.length_cons, Nat.cast_add, Nat.cast_one] at hlen
      show (rest.length : Int) ≤ c
      omega
  | peek => exact ⟨hcap, hlen⟩

theorem Queue.run_bounded {α : Type} (c : Int) (ops : List (QueueOp α)) :
    ∀ q : Queue α, q.Capacity = c ∧ (q.Items.length : Int) ≤ c →
      (q.run ops).Capacity = c ∧ ((q.run ops).Items.length : Int) ≤ c := by
  induction ops with
  | nil =>
    intro q h
    exact h
  | cons op rest ih =>
    intro q h
    exact ih (q.step op) (Queue.step_bounded c q op h)

theorem NewQueue_ok {α : Type} (maxCap c : Int) (h0 : 0 ≤ c) (h1 : c ≤ maxCap) :
    (NewQueue maxCap c : Res (Queue α)) = .ok { Capacity := c, Items := [] } := by
  unfold NewQueue
  rw [if_neg (by omega)]

theorem NewQueue_out_of_range {α : Type} (maxCap c : Int) (h : c < 0 ∨ maxCap < c) :
    (NewQueue maxCap c : Res (Queue α))
      = .panic "runtime error: makeslice: cap out of range" := by
  unfold NewQueue
  rw [if_pos h]

theorem NewQueue_eq_ok {α : Type} (maxCap c : Int) (q0 : Queue α)
    (hq : NewQueue maxCap c = .ok q0) :
    0 ≤ c ∧ c ≤ maxCap ∧ q0 = { Capacity := c, Items := [] } := by
  by_cases h : c < 0 ∨ maxCap < c
  · rw [NewQueue_out_of_range maxCap c h] at hq
    cases hq
  · have h0 : 0 ≤ c := by omega
    have h1 : c ≤ maxCap := by omega
    rw [NewQueue_ok maxCap c h0 h1] at hq
    cases hq
    exact ⟨h0, h1, rfl⟩

/-- C16: a queue that `NewQueue(c)` has made (which takes `c >= 0`, and `c` within
the limit `maxCap` of the runtime) and that is driven by any sequence of `Enqueue`,
`Dequeue` and `Peek` calls keeps the capacity `c` and never holds more than `c`
items; `Enqueue` on it returns `QueueFullError` exactly when it holds `c` items, and
then leaves it unchanged; otherwise it returns no error and the item becomes the
last element. -/
theorem Enqueue_full_iff {α : Type} (maxCap c : Int) (q0 : Queue α)
    (hq : NewQueue maxCap c = .ok q0) (ops : List (QueueOp α)) (item : α) :
    0 ≤ c ∧
    (q0.run ops).Capacity = c ∧ ((q0.run ops).Items.length : Int) ≤ c ∧
    (((q0.run ops).Enqueue item).2 = some QueueFullError ↔
      ((q0.run ops).Items.length : Int) = c) ∧
    (((q0.run ops).Items.length : Int) = c →
      (q0.run ops).Enqueue item = (q0.run ops, some QueueFullError)) ∧
    (((q0.run ops).Items.length : Int) ≠ c →
      (q0.run ops).Enqueue item
        = ({ q0.run ops with Items := (q0.run ops).Items ++ [item] }, none)) := by
  obtain ⟨hc, _, rfl⟩ := NewQueue_eq_ok maxCap c q0 hq
  obtain ⟨hcap, hlen⟩ := Queue.run_bounded c ops ({ Capacity := c, Items := [] } : Queue α)
    ⟨rfl, by simpa using hc⟩
  generalize Queue.run ({ Capacity := c, Items := [] } : Queue α) ops = q at hcap hlen
  refine ⟨hc, hcap, hlen, ?_, ?_, ?_⟩
  · by_cases hf : (q.Items.length : Int) = q.Capacity
    · rw [Queue.enqueue_full q item hf]
      simp only [true_iff]
      rw [hf, hcap]
    · rw [Queue.enqueue_room q item hf]
      rw [hcap] at hf
      simp [hf]
  · intro hf
    exact Queue.enqueue_full q item (hcap ▸ hf)
  · intro hf
    exact Queue.enqueue_room q item (hcap ▸ hf)

/-- C16 at the queue of the tests, `NewQueue(3)`, after three `Enqueue` calls, with
the limit of a 64-bit platform. -/
theorem Enqueue_full_iff_witness :
    NewQueue maxCap64 3 = .ok (Queue.mk 3 ([] : List String)) ∧
    (0 : Int) ≤ 3 ∧
    ((Queue.mk 3 ([] : List String)).run
      [.enqueue "item1", .enqueue "item2", .enqueue "item3"]).Capacity = 3 ∧
    (((Queue.mk 3 ([] : List String)).run
      [.enqueue "item1", .enqueue "item2", .enqueue "item3"]).Items.length : Int) ≤ 3 ∧
    ((((Queue.mk 3 ([] : List String)).run
        [.enqueue "item1", .enqueue "item2", .enqueue "item3"]).Enqueue "item4").2
        = some QueueFullError ↔
      (((Queue.mk 3 ([] : List String)).run
        [.enqueue "item1", .enqueue "item2", .enqueue "item3"]).Items.length : Int) = 3) ∧
    ((((Queue.mk 3 ([] : List String)).run
        [.enqueue "item1", .enqueue "item2", .enqueue "item3"]).Items.length : Int) = 3 →
      ((Queue.mk 3 ([] : List String)).run
        [.enqueue "item1", .enqueue "item2", .enqueue "item3"]).Enqueue "item4"
        = ((Queue.mk 3 ([] : List String)).run
            [.enqueue "item1", .enqueue "item2", .enqueue "item3"],
            some QueueFullError)) ∧
    ((((Queue.mk 3 ([] : List String)).run
        [.enqueue "item1", .enqueue "item2", .enqueue "item3"]).Items.length : Int) ≠ 3 →
      ((Queue.mk 3 ([] : List String)).run
        [.enqueue "item1", .enqueue "item2", .enqueue "item3"]).Enqueue "item4"
        = ({ (Queue.mk 3 ([] : List String)).run
              [.enqueue "item1", .enqueue "item2", .enqueue "item3"] with
              Items := ((Queue.mk 3 ([] : List String)).run
                [.enqueue "item1", .enqueue "item2", .enqueue "item3"]).Items
                ++ ["item4"] }, none)) :=
  ⟨by decide,
    Enqueue_full_iff maxCap64 3 (Queue.mk 3 ([] : List String)) (by decide)
      [.enqueue "item1", .enqueue "item2", .enqueue "item3"] "item4"⟩

theorem Queue.enqueueAll_room {α : Type} (xs : List α) :
    ∀ q : Queue α, (q.Items.length : Int) + xs.length ≤ q.Capacity →
      q.enqueueAll xs = ({ q with Items := q.Items ++ xs }, xs.map fun _ => none) := by
  induction xs with
  | nil =>
    intro q _
    simp [Queue.enqueueAll]
  | cons x xs ih =>
    intro q h
    simp only [List.length_cons, Nat.cast_add, Nat.cast_one] at h
    have hroom : (q.Items.length : Int) ≠ q.Capacity := by omega
    have hnext := ih { q with Items := q.Items ++ [x] } (by
      simp only [List.length_append, List.length_singleton, Nat.cast_add, Nat.cast_one]
      omega)
    rw [Queue.enqueueAll, Queue.enqueue_room q x hroom]
    simp only [hnext, List.append_assoc, List.singleton_append, List.map_cons]

theorem Queue.dequeueN_all {α : Type} (items : List α) :
    ∀ q : Queue α, q.Items = items →
      q.dequeueN items.length = ({ q with Items := [] }, items.map some) := by
  induction items with
  | nil =>
    intro q h
    cases q
    simp only at h
    subst h
    rfl
  | cons x rest ih =>
    intro q h
    have hnext := ih { q with Items := rest } rfl
    rw [List.length_cons, Queue.dequeueN, Queue.dequeue_cons q x rest h]
    simp only [hnext, List.map_cons]

/-- C17: the queue is first-in first-out. The items enqueued while there is room
are appended in order; as many `Dequeue` calls as there are items return them in
that order and leave the queue empty, each call removing the head that it returns;
so after successful `Enqueue` calls the `Dequeue` calls return the earlier items and
then the enqueued ones, in the order of their enqueuing. `Dequeue` on an empty queue
returns nil and leaves it unchanged, and `Peek` returns what `Dequeue` would
return. -/
theorem Queue_fifo {α : Type} (q : Queue α) :
    (∀ xs : List α, (q.Items.length : Int) + xs.length ≤ q.Capacity →
      q.enqueueAll xs = ({ q with Items := q.Items ++ xs }, xs.map fun _ => none) ∧
      (q.enqueueAll xs).1.dequeueN (q.Items.length + xs.length)
        = ({ q with Items := [] }, (q.Items ++ xs).map some)) ∧
    q.dequeueN q.Items.length = ({ q with Items := [] }, q.Items.map some) ∧
    (∀ x rest, q.Items = x :: rest → q.Dequeue = ({ q with Items := rest }, some x)) ∧
    (q.Items = [] → q.Dequeue = (q, none)) ∧
    q.Peek = q.Dequeue.2 := by
  refine ⟨?_, Queue.dequeueN_all q.Items q rfl, Queue.dequeue_cons q, Queue.dequeue_nil q, ?_⟩
  · intro xs h
    have henq := Queue.enqueueAll_room xs q h
    refine ⟨henq, ?_⟩
    rw [henq]
    have := Queue.dequeueN_all (q.Items ++ xs) { q with Items := q.Items ++ xs } rfl
    rw [List.length_append] at this
    exact this
  · cases hi : q.Items with
    | nil =>
      rw [Queue.dequeue_nil q hi]
      unfold Queue.Peek Queue.IsEmpty
      rw [hi]
      rfl
    | cons x rest =>
      rw [Queue.dequeue_cons q x rest hi]
      unfold Queue.Peek Queue.IsEmpty
      rw [hi]
      rfl

end common

namespace graph

open common

/-! ### Association lists -/

theorem mapGet_some_mem {V : Type} (l : List (String × V)) (k : String) (v : V)
    (h : mapGet l k = some v) : (k, v) ∈ l := by
  induction l with
  | nil => simp [mapGet] at h
  | cons e rest ih =>
    obtain ⟨k', v'⟩ := e
    by_cases hk : k' = k
    · subst hk
      simp [mapGet] at h
      simp [h]
    · simp [mapGet, hk] at h
      exact List.mem_cons_of_mem _ (ih h)

theorem mapGet_isSome_iff {V : Type} (l : List (String × V)) (k : String) :
    (∃ v, mapGet l k = some v) ↔ k ∈ l.map Prod.fst := by
  induction l with
  | nil => simp [mapGet]
  | cons e rest ih =>
    obtain ⟨k', v'⟩ := e
    by_cases hk : k' = k
    · subst hk
      simp [mapGet]
    · have hk' : ¬ k = k' := fun h => hk h.symm
      simp only [mapGet, hk, if_false, ih, List.map_cons, List.mem_cons, hk', false_or]

theorem mapGet_eq_none_iff {V : Type} (l : List (String × V)) (k : String) :
    mapGet l k = none ↔ k ∉ l.map Prod.fst := by
  rw [← mapGet_isSome_iff]
  cases mapGet l k <;> simp

theorem mapGet_append {V : Type} (l r : List (String × V)) (k : String) :
    mapGet (l ++ r) k = (mapGet l k).orElse (fun _ => mapGet r k) := by
  induction l with
  | nil => simp [mapGet]
  | cons e rest ih =>
    obtain ⟨k', v'⟩ := e
    by_cases hk : k' = k
    · simp [mapGet, hk]
    · simp [mapGet, hk, ih]

theorem mapGet_cons {V : Type} (k' : String) (v : V) (rest : List (String × V))
    (k : String) :
    mapGet ((k', v) :: rest) k = if k' = k then some v else mapGet rest k := rfl

theorem mapGet_map_at {V : Type} (l : List (String × V)) (a : String) (f : V → V)
    (k : String) :
    mapGet (l.map fun e => if e.1 = a then (e.1, f e.2) else e) k
      = (mapGet l k).map (fun v => if k = a then f v else v) := by
  induction l with
  | nil => simp [mapGet]
  | cons e rest ih =>
    obtain ⟨k', v'⟩ := e
    rw [List.map_cons]
    by_cases ha : k' = a
    · rw [if_pos ha, mapGet_cons, mapGet_cons, ih]
      by_cases hk : k' = k
      · rw [if_pos hk, if_pos hk, Option.map_some', if_pos (hk ▸ ha)]
      · rw [if_neg hk, if_neg hk]
    · rw [if_neg ha, mapGet_cons, mapGet_cons, ih]
      by_cases hk : k' = k
      · rw [if_pos hk, if_pos hk, Option.map_some', if_neg (hk ▸ ha)]
      · rw [if_neg hk, if_neg hk]

theorem Graph.isKey_iff (g : Graph) (k : String) :
    g.IsKey k ↔ ∃ n, g.node k = some n :=
  (mapGet_isSome_iff g.Vertices k).symm

theorem mem_setAdd (s : List String) (k x : String) :
    x ∈ setAdd s k ↔ x ∈ s ∨ x = k := by
  unfold setAdd
  by_cases h : k ∈ s
  · rw [if_pos h]
    constructor
    · exact Or.inl
    · rintro (hx | hx)
      · exact hx
      · exact hx ▸ h
  · rw [if_neg h]
    simp

theorem setAdd_of_not_mem (s : List String) (k : String) (h : k ∉ s) :
    setAdd s k = s ++ [k] := by
  unfold setAdd
  rw [if_neg h]

theorem setAdd_nodup (s : List String) (k : String) (h : s.Nodup) :
    (setAdd s k).Nodup := by
  unfold setAdd
  by_cases hk : k ∈ s
  · rw [if_pos hk]
    exact h
  · rw [if_neg hk]
    exact List.Nodup.append h (List.nodup_singleton k) (by simpa using hk)

/-! ### Building a graph -/

theorem node_addVertex (g : Graph) (k x : String) :
    (addVertex g k).node x
      = (g.node x).orElse
          (fun _ => if k = x then some { Name := k, Children := [] } else none) := by
  unfold addVertex
  cases h : g.node k with
  | some n =>
    cases hx : g.node x with
    | some m => rfl
    | none =>
      by_cases hkx : k = x
      · rw [hkx, hx] at h
        cases h
      · simp [hx, hkx]
  | none =>
    simp only [Graph.node, mapGet_append, mapGet_cons]
    rfl

theorem node_addChild (g : Graph) (a c x : String) :
    (addChild g a c).node x
      = (g.node x).map
          (fun n => if x = a then { n with Children := setAdd n.Children c } else n) := by
  unfold addChild Graph.node
  exact mapGet_map_at g.Vertices a (fun n => { n with Children := setAdd n.Children c }) x

theorem keys_addChild (g : Graph) (a c : String) : (addChild g a c).keys = g.keys := by
  unfold addChild Graph.keys
  simp only [List.map_map]
  apply List.map_congr_left
  intro e _
  by_cases h : e.1 = a
  · simp [h]
  · simp [h]

theorem keys_addVertex (g : Graph) (k : String) :
    (addVertex g k).keys = if k ∈ g.keys then g.keys else g.keys ++ [k] := by
  unfold addVertex
  by_cases h : k ∈ g.keys
  · rw [if_pos h]
    obtain ⟨n, hn⟩ := (g.isKey_iff k).1 h
    rw [hn]
  · rw [if_neg h]
    have hn : g.node k = none := (mapGet_eq_none_iff g.Vertices k).2 h
    rw [hn]
    simp [Graph.keys]

theorem isKey_addVertex (g : Graph) (k x : String) :
    (addVertex g k).IsKey x ↔ g.IsKey x ∨ x = k := by
  unfold Graph.IsKey
  rw [keys_addVertex]
  by_cases h : k ∈ g.keys
  · rw [if_pos h]
    constructor
    · exact Or.inl
    · rintro (hx | hx)
      · exact hx
      · exact hx ▸ h
  · rw [if_neg h]
    simp

theorem isKey_addChild (g : Graph) (a c x : String) :
    (addChild g a c).IsKey x ↔ g.IsKey x := by
  unfold Graph.IsKey
  rw [keys_addChild]

theorem edge_addVertex (g : Graph) (k u v : String) :
    (addVertex g k).Edge u v ↔ g.Edge u v := by
  unfold Graph.Edge
  rw [node_addVertex]
  cases h : g.node u with
  | some n => simp
  | none =>
    by_cases hk : k = u
    · simp [hk]
    · simp [hk]

theorem edge_addChild (g : Graph) (a c u v : String) :
    (addChild g a c).Edge u v ↔ g.Edge u v ∨ (u = a ∧ v = c ∧ g.IsKey a) := by
  unfold Graph.Edge
  rw [node_addChild, Graph.isKey_iff]
  cases h : g.node u with
  | none =>
    constructor
    · rintro ⟨n, hn, _⟩
      cases hn
    · rintro (⟨n, hn, _⟩ | ⟨rfl, _, n, hn⟩)
      · cases hn
      · rw [h] at hn
        cases hn
  | some n =>
    by_cases hu : u = a
    · subst hu
      simp [h, mem_setAdd]
    · simp [hu]

theorem addEdges_cons (name adj : String) (rest : List String) (g : Graph) :
    addEdges name (adj :: rest) g = addEdges name rest (addEdge g name adj) := rfl

theorem type_addVertex (g : Graph) (k : String) : (addVertex g k).Type_ = g.Type_ := by
  unfold addVertex
  cases g.node k <;> rfl

theorem type_addEdge (g : Graph) (a c : String) : (addEdge g a c).Type_ = g.Type_ := by
  unfold addEdge
  simp only
  split
  · exact type_addVertex g c
  · exact type_addVertex g c

theorem type_addEdges (name : String) (cs : List String) (g : Graph) :
    (addEdges name cs g).Type_ = g.Type_ := by
  induction cs generalizing g with
  | nil => rfl
  | cons c rest ih => rw [addEdges_cons, ih, type_addEdge]

theorem flag_addVertex (g : Graph) (k : String) :
    (addVertex g k).hasCycles = g.hasCycles := by
  unfold addVertex
  cases g.node k <;> rfl

theorem flag_addEdge (g : Graph) (a c : String) :
    (addEdge g a c).hasCycles = g.hasCycles := by
  unfold addEdge
  simp only
  split
  · exact flag_addVertex g c
  · exact flag_addVertex g c

theorem flag_addEdges (name : String) (cs : List String) (g : Graph) :
    (addEdges name cs g).hasCycles = g.hasCycles := by
  induction cs generalizing g with
  | nil => rfl
  | cons c rest ih => rw [addEdges_cons, ih, flag_addEdge]

theorem Built.addVertex {g : Graph} (hg : Built g) (k : String) : Built (addVertex g k) where
  nodup := by
    rw [keys_addVertex]
    by_cases h : k ∈ g.keys
    · rw [if_pos h]
      exact hg.nodup
    · rw [if_neg h]
      exact List.Nodup.append hg.nodup (List.nodup_singleton k) (by simpa using h)
  size := by
    unfold graph.addVertex
    cases g.node k with
    | some n => exact hg.size
    | none => simp [hg.size]
  name := by
    intro x n hn
    rw [node_addVertex] at hn
    cases hx : g.node x with
    | some m =>
      rw [hx] at hn
      simp at hn
      exact hn ▸ hg.name x m hx
    | none =>
      rw [hx] at hn
      by_cases hk : k = x
      · simp [hk] at hn
        rw [← hn]
      · simp [hk] at hn
  closed := by
    intro u v huv
    rw [edge_addVertex] at huv
    exact (isKey_addVertex g k v).2 (Or.inl (hg.closed u v huv))
  childrenNodup := by
    intro x n hn
    rw [node_addVertex] at hn
    cases hx : g.node x with
    | some m =>
      rw [hx] at hn
      simp at hn
      exact hn ▸ hg.childrenNodup x m hx
    | none =>
      rw [hx] at hn
      by_cases hk : k = x
      · simp [hk] at hn
        rw [← hn]
        exact List.nodup_nil
      · simp [hk] at hn

theorem Built.addChild {g : Graph} (hg : Built g) (a c : String) (hc : g.IsKey c) :
    Built (addChild g a c) where
  nodup := by
    rw [keys_addChild]
    exact hg.nodup
  size := by
    unfold graph.addChild
    simp [hg.size]
  name := by
    intro x n hn
    rw [node_addChild] at hn
    cases hx : g.node x with
    | none =>
      rw [hx] at hn
      cases hn
    | some m =>
      rw [hx] at hn
      simp only [Option.map_some', Option.some.injEq] at hn
      rw [← hn]
      by_cases hxa : x = a
      · rw [if_pos hxa]
        exact hg.name x m hx
      · rw [if_neg hxa]
        exact hg.name x m hx
  closed := by
    intro u v huv
    rw [edge_addChild] at huv
    rw [isKey_addChild]
    rcases huv with huv | ⟨_, rfl, _⟩
    · exact hg.closed u v huv
    · exact hc
  childrenNodup := by
    intro x n hn
    rw [node_addChild] at hn
    cases hx : g.node x with
    | none =>
      rw [hx] at hn
      cases hn
    | some m =>
      rw [hx] at hn
      simp only [Option.map_some', Option.some.injEq] at hn
      rw [← hn]
      by_cases hxa : x = a
      · rw [if_pos hxa]
        exact setAdd_nodup _ _ (hg.childrenNodup x m hx)
      · rw [if_neg hxa]
        exact hg.childrenNodup x m hx

theorem isKey_addEdge (g : Graph) (a c x : String) :
    (addEdge g a c).IsKey x ↔ g.IsKey x ∨ x = c := by
  unfold addEdge
  simp only
  split
  · rw [isKey_addChild, isKey_addChild, isKey_addVertex]
  · rw [isKey_addChild, isKey_addVertex]

theorem Built.addEdge {g : Graph} (hg : Built g) (a c : String) (ha : g.IsKey a) :
    Built (addEdge g a c) := by
  have h1 : Built (graph.addChild (graph.addVertex g c) a c) :=
    (hg.addVertex c).addChild a c ((isKey_addVertex g c c).2 (Or.inr rfl))
  unfold graph.addEdge
  simp only
  split
  · exact h1.addChild c a
      ((isKey_addChild _ a c a).2 ((isKey_addVertex g c a).2 (Or.inl ha)))
  · exact h1

theorem edge_addEdge (g : Graph) (a c u v : String) (ha : g.IsKey a) :
    (addEdge g a c).Edge u v ↔
      g.Edge u v ∨ (u = a ∧ v = c) ∨ (g.Type_ = Undirected ∧ u = c ∧ v = a) := by
  have ha1 : (addVertex g c).IsKey a := (isKey_addVertex g c a).2 (Or.inl ha)
  have hc1 : (addVertex g c).IsKey c := (isKey_addVertex g c c).2 (Or.inr rfl)
  have ht : (addChild (addVertex g c) a c).Type_ = g.Type_ := type_addVertex g c
  unfold addEdge
  simp only
  rw [ht]
  by_cases hu : g.Type_ = Undirected
  · rw [if_pos hu, edge_addChild, edge_addChild, edge_addVertex, isKey_addChild]
    simp only [ha1, hc1, and_true, hu, true_and]
    tauto
  · rw [if_neg hu, edge_addChild, edge_addVertex]
    simp only [ha1, and_true, hu, false_and, or_false]

theorem isKey_addEdges (name : String) (cs : List String) (g : Graph) (x : String) :
    (addEdges name cs g).IsKey x ↔ g.IsKey x ∨ x ∈ cs := by
  induction cs generalizing g with
  | nil => simp [addEdges]
  | cons c rest ih =>
    rw [addEdges_cons, ih, isKey_addEdge]
    simp only [List.mem_cons]
    tauto

theorem Built.addEdges {g : Graph} (hg : Built g) (name : String) (cs : List String)
    (hn : g.IsKey name) : Built (addEdges name cs g) := by
  induction cs generalizing g with
  | nil => exact hg
  | cons c rest ih =>
    rw [addEdges_cons]
    exact ih (hg.addEdge name c hn) ((isKey_addEdge g name c name).2 (Or.inl hn))

theorem edge_addEdges (name : String) (cs : List String) (g : Graph) (u v : String)
    (hn : g.IsKey name) :
    (addEdges name cs g).Edge u v ↔
      g.Edge u v ∨ (u = name ∧ v ∈ cs) ∨ (g.Type_ = Undirected ∧ u ∈ cs ∧ v = name) := by
  induction cs generalizing g with
  | nil => simp [addEdges]
  | cons c rest ih =>
    rw [addEdges_cons, ih _ ((isKey_addEdge g name c name).2 (Or.inl hn)),
      edge_addEdge g name c u v hn, type_addEdge]
    simp only [List.mem_cons]
    tauto

theorem type_addRecord (g : Graph) (r : String × List String) :
    (addRecord g r).Type_ = g.Type_ := by
  unfold addRecord
  rw [type_addEdges, type_addVertex]

theorem flag_addRecord (g : Graph) (r : String × List String) :
    (addRecord g r).hasCycles = g.hasCycles := by
  unfold addRecord
  rw [flag_addEdges, flag_addVertex]

theorem Built.addRecord {g : Graph} (hg : Built g) (r : String × List String) :
    Built (addRecord g r) :=
  (hg.addVertex r.1).addEdges r.1 r.2 ((isKey_addVertex g r.1 r.1).2 (Or.inr rfl))

theorem isKey_addRecord (g : Graph) (r : String × List String) (x : String) :
    (addRecord g r).IsKey x ↔ g.IsKey x ∨ x = r.1 ∨ x ∈ r.2 := by
  unfold addRecord
  rw [isKey_addEdges, isKey_addVertex]
  tauto

theorem edge_addRecord (g : Graph) (r : String × List String) (u v : String) :
    (addRecord g r).Edge u v ↔
      g.Edge u v ∨ (u = r.1 ∧ v ∈ r.2) ∨ (g.Type_ = Undirected ∧ u ∈ r.2 ∧ v = r.1) := by
  unfold addRecord
  rw [edge_addEdges _ _ _ _ _ ((isKey_addVertex g r.1 r.1).2 (Or.inr rfl)),
    edge_addVertex, type_addVertex]

theorem type_foldl (rs : List (String × List String)) (g : Graph) :
    (rs.foldl addRecord g).Type_ = g.Type_ := by
  induction rs generalizing g with
  | nil => rfl
  | cons r rest ih => rw [List.foldl_cons, ih, type_addRecord]

theorem flag_foldl (rs : List (String × List String)) (g : Graph) :
    (rs.foldl addRecord g).hasCycles = g.hasCycles := by
  induction rs generalizing g with
  | nil => rfl
  | cons r rest ih => rw [List.foldl_cons, ih, flag_addRecord]

theorem Built.foldl {g : Graph} (hg : Built g) (rs : List (String × List String)) :
    Built (rs.foldl graph.addRecord g) := by
  induction rs generalizing g with
  | nil => exact hg
  | cons r rest ih =>
    rw [List.foldl_cons]
    exact ih (hg.addRecord r)

theorem isKey_foldl (rs : List (String × List String)) (g : Graph) (x : String) :
    (rs.foldl addRecord g).IsKey x ↔ g.IsKey x ∨ ∃ r ∈ rs, x = r.1 ∨ x ∈ r.2 := by
  induction rs generalizing g with
  | nil => simp
  | cons r rest ih =>
    rw [List.foldl_cons, ih, isKey_addRecord]
    simp only [List.mem_cons, exists_eq_or_imp]
    generalize (∃ a ∈ rest, x = a.1 ∨ x ∈ a.2) = Q
    tauto

theorem edge_foldl (rs : List (String × List String)) (g : Graph) (u v : String) :
    (rs.foldl addRecord g).Edge u v ↔
      g.Edge u v ∨ (∃ r ∈ rs, u = r.1 ∧ v ∈ r.2) ∨
        (g.Type_ = Undirected ∧ ∃ r ∈ rs, u ∈ r.2 ∧ v = r.1) := by
  induction rs generalizing g with
  | nil => simp
  | cons r rest ih =>
    rw [List.foldl_cons, ih, edge_addRecord, type_addRecord]
    simp only [List.mem_cons, exists_eq_or_imp]
    generalize (∃ a ∈ rest, u = a.1 ∧ v ∈ a.2) = Q
    generalize (∃ a ∈ rest, u ∈ a.2 ∧ v = a.1) = Q2
    tauto

theorem FromAdjacencyList_eq (adjList : AdjacencyList) :
    FromAdjacencyList adjList = adjList.Vertices.foldl addRecord (emptyGraph adjList.Kind) :=
  rfl

theorem Built.emptyGraph (kind : Kind) : Built (emptyGraph kind) where
  nodup := List.nodup_nil
  size := rfl
  name := by
    intro k n h
    cases h
  closed := by
    rintro u v ⟨n, h, _⟩
    cases h
  childrenNodup := by
    intro k n h
    cases h

theorem Built.fromAdjacencyList (adjList : AdjacencyList) :
    Built (FromAdjacencyList adjList) := by
  rw [FromAdjacencyList_eq]
  exact (Built.emptyGraph adjList.Kind).foldl adjList.Vertices

theorem isKey_fromAdjacencyList (adjList : AdjacencyList) (x : String) :
    (FromAdjacencyList adjList).IsKey x ↔ ∃ r ∈ adjList.Vertices, x = r.1 ∨ x ∈ r.2 := by
  rw [FromAdjacencyList_eq, isKey_foldl]
  simp [emptyGraph, Graph.IsKey, Graph.keys]

theorem edge_fromAdjacencyList (adjList : AdjacencyList) (u v : String) :
    (FromAdjacencyList adjList).Edge u v ↔
      (∃ r ∈ adjList.Vertices, u = r.1 ∧ v ∈ r.2) ∨
        (adjList.Kind = Undirected ∧ ∃ r ∈ adjList.Vertices, u ∈ r.2 ∧ v = r.1) := by
  rw [FromAdjacencyList_eq, edge_foldl]
  have h : ¬ (emptyGraph adjList.Kind).Edge u v := by
    rintro ⟨n, h, _⟩
    cases h
  have ht : (emptyGraph adjList.Kind).Type_ = adjList.Kind := rfl
  rw [ht]
  simp only [h, false_or]

theorem type_fromAdjacencyList (adjList : AdjacencyList) :
    (FromAdjacencyList adjList).Type_ = adjList.Kind := by
  rw [FromAdjacencyList_eq, type_foldl]
  rfl

theorem flag_fromAdjacencyList (adjList : AdjacencyList) :
    (FromAdjacencyList adjList).hasCycles = false := by
  rw [FromAdjacencyList_eq, flag_foldl]
  rfl

/-- C10: the keys of the graph built by `FromAdjacencyList` are exactly the names
that occur in the adjacency list as a vertex key or as a neighbour, each bound to a
node of that name; every child name of every node is a key; and `Size` is the
number of keys. -/
theorem FromAdjacencyList_vertices (adjList : AdjacencyList) :
    (∀ k, (∃ r ∈ adjList.Vertices, k = r.1 ∨ k ∈ r.2) ↔
        ∃ n, (FromAdjacencyList adjList).node k = some n ∧ n.Name = k) ∧
    (∀ k n, (FromAdjacencyList adjList).node k = some n →
        ∀ c ∈ n.Children, c ∈ (FromAdjacencyList adjList).keys) ∧
    (FromAdjacencyList adjList).keys.Nodup ∧
    (FromAdjacencyList adjList).Size = (FromAdjacencyList adjList).keys.length := by
  have hb := Built.fromAdjacencyList adjList
  refine ⟨?_, ?_, hb.nodup, ?_⟩
  · intro k
    rw [← isKey_fromAdjacencyList, Graph.isKey_iff]
    constructor
    · rintro ⟨n, hn⟩
      exact ⟨n, hn, hb.name k n hn⟩
    · rintro ⟨n, hn, _⟩
      exact ⟨n, hn⟩
  · intro k n hn c hc
    exact hb.closed k c ⟨n, hn, hc⟩
  · rw [hb.size]
    simp [Graph.keys]

/-! ### Depth-first search -/

theorem Res.bind_eq_ok {α β : Type} (r : Res α) (f : α → Res β) (b : β)
    (h : r.bind f = .ok b) : ∃ a, r = .ok a ∧ f a = .ok b := by
  cases r with
  | ok a => exact ⟨a, rfl, h⟩
  | panic msg => cases h
  | outOfFuel => cases h

theorem directed_ne_undirected : Directed ≠ Undirected := by decide

theorem dfsChildren_seen (g : Graph) (hk : g.KindOK)
    (rec : Option Node → Graph × List Node → Res (Graph × List Node))
    (c : String) (cs d : List String) (h : Bool) (calls : List Node) (hc : c ∈ d) :
    dfsChildren rec (c :: cs) (g.during d h, calls)
      = dfsChildren rec cs (g.during d true, calls) := by
  have hc' : c ∈ (g.during d h).discovered := hc
  rcases hk with hk | hk
  · have h1 : ¬ (g.during d h).Type_ = Undirected :=
      fun h2 => directed_ne_undirected (hk.symm.trans h2)
    have h2 : (g.during d h).Type_ = Directed ∧ c ∉ (g.during d h).visited :=
      ⟨hk, by simp [Graph.during]⟩
    rw [dfsChildren]
    simp only [if_pos hc', if_neg h1, if_pos h2]
    rfl
  · have h1 : (g.during d h).Type_ = Undirected := hk
    rw [dfsChildren]
    simp only [if_pos hc', if_pos h1]
    rfl

theorem dfsChildren_fresh (g : Graph)
    (rec : Option Node → Graph × List Node → Res (Graph × List Node))
    (c : String) (cs d : List String) (h : Bool) (calls : List Node) (hc : c ∉ d) :
    dfsChildren rec (c :: cs) (g.during d h, calls)
      = (rec (g.node c) (g.during (d ++ [c]) h, calls)).bind (dfsChildren rec cs) := by
  have hc' : c ∉ (g.during d h).discovered := hc
  have h3 : setAdd (g.during d h).discovered c = d ++ [c] := setAdd_of_not_mem d c hc
  rw [dfsChildren]
  simp only [if_neg hc', h3]
  rfl

theorem VisitedAt.append {g : Graph} {ks1 ks2 : List String} {t1 t2 : List Node}
    (h1 : g.VisitedAt ks1 t1) (h2 : g.VisitedAt ks2 t2) :
    g.VisitedAt (ks1 ++ ks2) (t1 ++ t2) := by
  unfold Graph.VisitedAt at *
  induction h1 with
  | nil => exact h2
  | cons hab _ ih => exact List.Forall₂.cons hab ih

theorem VisitedAt.single {g : Graph} {k : String} {n : Node} (h : g.node k = some n) :
    g.VisitedAt [k] [n] :=
  List.Forall₂.cons h List.Forall₂.nil

/-- Whatever the loop of `dfs` returns is described by `Explore`. -/
theorem dfsChildren_sound (g : Graph) (hk : g.KindOK) (fuel : Nat) :
    ∀ (cs d : List String) (h : Bool) (calls : List Node) (w : Graph × List Node),
      dfsChildren (dfs fuel) cs (g.during d h, calls) = .ok w →
      ∃ d' h' ks t, w = (g.during d' h', calls ++ t) ∧ g.VisitedAt ks t ∧
        Explore g cs d h d' h' ks := by
  induction fuel with
  | zero =>
    intro cs
    induction cs with
    | nil =>
      intro d h calls w hw
      rw [dfsChildren] at hw
      cases hw
      exact ⟨d, h, [], [], by simp, List.Forall₂.nil, Explore.done d h⟩
    | cons c cs ih =>
      intro d h calls w hw
      by_cases hc : c ∈ d
      · rw [dfsChildren_seen g hk _ c cs d h calls hc] at hw
        obtain ⟨d', h', ks, t, e, hv, hx⟩ := ih d true calls w hw
        exact ⟨d', h', ks, t, e, hv, Explore.seen c cs d h d' h' ks hc hx⟩
      · rw [dfsChildren_fresh g _ c cs d h calls hc] at hw
        simp [dfs, Res.bind] at hw
  | succ f ihf =>
    intro cs
    induction cs with
    | nil =>
      intro d h calls w hw
      rw [dfsChildren] at hw
      cases hw
      exact ⟨d, h, [], [], by simp, List.Forall₂.nil, Explore.done d h⟩
    | cons c cs ih =>
      intro d h calls w hw
      by_cases hc : c ∈ d
      · rw [dfsChildren_seen g hk _ c cs d h calls hc] at hw
        obtain ⟨d', h', ks, t, e, hv, hx⟩ := ih d true calls w hw
        exact ⟨d', h', ks, t, e, hv, Explore.seen c cs d h d' h' ks hc hx⟩
      · rw [dfsChildren_fresh g _ c cs d h calls hc] at hw
        obtain ⟨w1, hw1, hrest⟩ := Res.bind_eq_ok _ _ _ hw
        cases hn : g.node c with
        | none =>
          rw [hn] at hw1
          simp [dfs] at hw1
        | some n =>
          rw [hn, dfs] at hw1
          obtain ⟨w2, hw2, hret⟩ := Res.bind_eq_ok _ _ _ hw1
          obtain ⟨d1, h1, ks1, t1, e1, hv1, hx1⟩ := ihf n.Children (d ++ [c]) h calls w2 hw2
          subst e1
          simp only [Res.ok.injEq] at hret
          subst hret
          obtain ⟨d', h', ks2, t2, e2, hv2, hx2⟩ := ih d1 h1 _ w hrest
          refine ⟨d', h', ks1 ++ c :: ks2, t1 ++ n :: t2, ?_, ?_, ?_⟩
          · rw [e2]
            simp
          · exact VisitedAt.append hv1 (VisitedAt.append (VisitedAt.single hn) hv2)
          · exact Explore.fresh c cs n d h d1 h1 ks1 d' h' ks2 hc hn hx1 hx2

theorem Explore.mem_iff {g : Graph} {cs d : List String} {h : Bool} {d' : List String}
    {h' : Bool} {ks : List String} (hx : Explore g cs d h d' h' ks) (x : String) :
    x ∈ d' ↔ x ∈ d ∨ x ∈ ks := by
  induction hx with
  | done d h => simp
  | seen c cs d h d' h' ks _ _ ih => exact ih
  | fresh c cs n d h d1 h1 ks1 d' h' ks2 _ _ _ _ ih1 ih2 =>
    rw [ih2, ih1]
    simp only [List.mem_append, List.mem_singleton, List.mem_cons]
    tauto

theorem Explore.nodup {g : Graph} {cs d : List String} {h : Bool} {d' : List String}
    {h' : Bool} {ks : List String} (hx : Explore g cs d h d' h' ks) :
    ks.Nodup ∧ ∀ x ∈ ks, x ∉ d := by
  induction hx with
  | done d h => simp
  | seen c cs d h d' h' ks _ _ ih => exact ih
  | fresh c cs n d h d1 h1 ks1 d' h' ks2 hc _ hx1 _ ih1 ih2 =>
    have hd1 : ∀ x, x ∈ d1 ↔ x ∈ d ++ [c] ∨ x ∈ ks1 := hx1.mem_iff
    have hc1 : c ∉ ks1 := fun hmem => ih1.2 c hmem (by simp)
    have hc2 : c ∉ ks2 := fun hmem => ih2.2 c hmem ((hd1 c).2 (Or.inl (by simp)))
    have hdis : ∀ x ∈ ks1, x ∉ ks2 := fun x h1 h2 => ih2.2 x h2 ((hd1 x).2 (Or.inr h1))
    constructor
    · rw [List.nodup_append]
      refine ⟨ih1.1, List.nodup_cons.2 ⟨hc2, ih2.1⟩, ?_⟩
      intro x h1 h2
      rcases List.mem_cons.1 h2 with h2 | h2
      · exact hc1 (h2 ▸ h1)
      · exact hdis x h1 h2
    · intro x hmem hxd
      rcases List.mem_append.1 hmem with h1 | h2
      · exact ih1.2 x h1 (List.mem_append_left _ hxd)
      · rcases List.mem_cons.1 h2 with h2 | h2
        · exact hc (h2 ▸ hxd)
        · exact ih2.2 x h2 ((hd1 x).2 (Or.inl (List.mem_append_left _ hxd)))

theorem Explore.children_mem {g : Graph} {cs d : List String} {h : Bool}
    {d' : List String} {h' : Bool} {ks : List String} (hx : Explore g cs d h d' h' ks) :
    ∀ c ∈ cs, c ∈ d' := by
  induction hx with
  | done d h => simp
  | seen c cs d h d' h' ks hc hx ih =>
    intro x hmem
    rcases List.mem_cons.1 hmem with rfl | hmem
    · exact (hx.mem_iff x).2 (Or.inl hc)
    · exact ih x hmem
  | fresh c cs n d h d1 h1 ks1 d' h' ks2 _ _ hx1 hx2 _ ih2 =>
    intro x hmem
    rcases List.mem_cons.1 hmem with rfl | hmem
    · exact (hx2.mem_iff x).2 (Or.inl ((hx1.mem_iff x).2 (Or.inl (by simp))))
    · exact ih2 x hmem

theorem Explore.reach {g : Graph} {cs d : List String} {h : Bool} {d' : List String}
    {h' : Bool} {ks : List String} (hx : Explore g cs d h d' h' ks) :
    ∀ x ∈ ks, ∃ c ∈ cs, g.Reachable c x := by
  induction hx with
  | done d h => simp
  | seen c cs d h d' h' ks _ _ ih =>
    intro x hmem
    obtain ⟨c', hc', hr⟩ := ih x hmem
    exact ⟨c', List.mem_cons_of_mem _ hc', hr⟩
  | fresh c cs n d h d1 h1 ks1 d' h' ks2 _ hn _ _ ih1 ih2 =>
    intro x hmem
    rcases List.mem_append.1 hmem with h1 | h2
    · obtain ⟨c', hc', hr⟩ := ih1 x h1
      exact ⟨c, List.mem_cons_self _ _, Relation.ReflTransGen.head ⟨n, hn, hc'⟩ hr⟩
    · rcases List.mem_cons.1 h2 with h2 | h2
      · exact ⟨c, List.mem_cons_self _ _, h2 ▸ Relation.ReflTransGen.refl⟩
      · obtain ⟨c', hc', hr⟩ := ih2 x h2
        exact ⟨c', List.mem_cons_of_mem _ hc', hr⟩

theorem Explore.edges_mem {g : Graph} {cs d : List String} {h : Bool} {d' : List String}
    {h' : Bool} {ks : List String} (hx : Explore g cs d h d' h' ks) :
    ∀ x ∈ ks, ∀ y, g.Edge x y → y ∈ d' := by
  induction hx with
  | done d h => simp
  | seen c cs d h d' h' ks _ _ ih => exact ih
  | fresh c cs n d h d1 h1 ks1 d' h' ks2 _ hn hx1 hx2 ih1 ih2 =>
    intro x hmem y hxy
    rcases List.mem_append.1 hmem with h1 | h2
    · exact (hx2.mem_iff y).2 (Or.inl (ih1 x h1 y hxy))
    · rcases List.mem_cons.1 h2 with h2 | h2
      · obtain ⟨m, hm, hy⟩ := hxy
        rw [h2, hn] at hm
        cases hm
        exact (hx2.mem_iff y).2 (Or.inl (hx1.children_mem y hy))
      · exact ih2 x h2 y hxy

theorem Explore.flag_mono {g : Graph} {cs d : List String} {h : Bool} {d' : List String}
    {h' : Bool} {ks : List String} (hx : Explore g cs d h d' h' ks) :
    h = true → h' = true := by
  induction hx with
  | done d h => exact id
  | seen c cs d h d' h' ks _ _ ih => exact fun _ => ih rfl
  | fresh c cs n d h d1 h1 ks1 d' h' ks2 _ _ _ _ ih1 ih2 => exact fun hh => ih2 (ih1 hh)

theorem Explore.flag_of_seen {g : Graph} {cs d : List String} {h : Bool}
    {d' : List String} {h' : Bool} {ks : List String} (hx : Explore g cs d h d' h' ks) :
    (∃ c ∈ cs, c ∈ d) → h' = true := by
  induction hx with
  | done d h => simp
  | seen c cs d h d' h' ks _ hx _ => exact fun _ => hx.flag_mono rfl
  | fresh c cs n d h d1 h1 ks1 d' h' ks2 hc _ hx1 _ _ ih2 =>
    rintro ⟨x, hmem, hxd⟩
    rcases List.mem_cons.1 hmem with rfl | hmem
    · exact absurd hxd hc
    · exact ih2 ⟨x, hmem, (hx1.mem_iff x).2 (Or.inl (List.mem_append_left _ hxd))⟩

theorem filter_length_le (l : List String) (p q : String → Bool)
    (h : ∀ x ∈ l, q x = true → p x = true) :
    (l.filter q).length ≤ (l.filter p).length := by
  induction l with
  | nil => simp
  | cons a rest ih =>
    have ih1 := ih (fun x hx => h x (List.mem_cons_of_mem _ hx))
    have ha := h a (List.mem_cons_self _ _)
    cases hq : q a with
    | false =>
      cases hp : p a with
      | false => simpa [List.filter, hq, hp] using ih1
      | true =>
        simp only [List.filter, hq, hp, List.length_cons]
        omega
    | true =>
      have hp : p a = true := ha hq
      simpa [List.filter, hq, hp] using ih1

theorem filter_length_lt (l : List String) (p q : String → Bool)
    (h : ∀ x ∈ l, q x = true → p x = true) (c : String) (hc : c ∈ l)
    (hp : p c = true) (hq : q c = false) :
    (l.filter q).length < (l.filter p).length := by
  induction l with
  | nil => cases hc
  | cons a rest ih =>
    have hle := filter_length_le rest p q (fun x hx => h x (List.mem_cons_of_mem _ hx))
    have ha := h a (List.mem_cons_self _ _)
    rcases List.mem_cons.1 hc with rfl | hc
    · simp only [List.filter, hq, hp, List.length_cons]
      omega
    · have ih1 := ih (fun x hx => h x (List.mem_cons_of_mem _ hx)) hc
      cases hqa : q a with
      | false =>
        cases hpa : p a with
        | false => simpa [List.filter, hqa, hpa] using ih1
        | true =>
          simp only [List.filter, hqa, hpa, List.length_cons]
          omega
      | true =>
        have hpa : p a = true := ha hqa
        simpa [List.filter, hqa, hpa] using ih1

theorem undiscovered_mono (g : Graph) (d d' : List String) (h : ∀ x ∈ d, x ∈ d') :
    g.undiscovered d' ≤ g.undiscovered d := by
  unfold Graph.undiscovered
  apply filter_length_le
  intro x _ hx
  simp only [decide_eq_true_eq] at hx ⊢
  exact fun hxd => hx (h x hxd)

theorem undiscovered_lt (g : Graph) (d : List String) (c : String) (hk : g.IsKey c)
    (hc : c ∉ d) : g.undiscovered (d ++ [c]) < g.undiscovered d := by
  unfold Graph.undiscovered
  apply filter_length_lt _ _ _ _ c hk
  · simpa using hc
  · simp
  · intro x _ hx
    simp only [decide_eq_true_eq] at hx ⊢
    exact fun hxd => hx (List.mem_append_left _ hxd)

theorem undiscovered_le (g : Graph) (d : List String) :
    g.undiscovered d ≤ g.Vertices.length := by
  unfold Graph.undiscovered Graph.keys
  exact (List.length_filter_le _ _).trans (by simp)

/-- With fuel for every undiscovered key, the loop of `dfs` returns. -/
theorem dfsChildren_total (g : Graph) (hk : g.KindOK) (hcl : g.Closed) (fuel : Nat) :
    ∀ (cs d : List String) (h : Bool) (calls : List Node),
      (∀ c ∈ cs, g.IsKey c) → g.undiscovered d ≤ fuel →
      ∃ w, dfsChildren (dfs fuel) cs (g.during d h, calls) = .ok w := by
  induction fuel with
  | zero =>
    intro cs
    induction cs with
    | nil =>
      intro d h calls _ _
      exact ⟨_, by rw [dfsChildren]⟩
    | cons c cs ih =>
      intro d h calls hkeys hfuel
      by_cases hc : c ∈ d
      · rw [dfsChildren_seen g hk _ c cs d h calls hc]
        exact ih d true calls (fun x hx => hkeys x (List.mem_cons_of_mem _ hx)) hfuel
      · have := undiscovered_lt g d c (hkeys c (List.mem_cons_self _ _)) hc
        omega
  | succ f ihf =>
    intro cs
    induction cs with
    | nil =>
      intro d h calls _ _
      exact ⟨_, by rw [dfsChildren]⟩
    | cons c cs ih =>
      intro d h calls hkeys hfuel
      have hkeys' : ∀ x ∈ cs, g.IsKey x := fun x hx => hkeys x (List.mem_cons_of_mem _ hx)
      by_cases hc : c ∈ d
      · rw [dfsChildren_seen g hk _ c cs d h calls hc]
        exact ih d true calls hkeys' hfuel
      · have hck := hkeys c (List.mem_cons_self _ _)
        have hlt := undiscovered_lt g d c hck hc
        obtain ⟨n, hn⟩ := (g.isKey_iff c).1 hck
        obtain ⟨w2, hw2⟩ := ihf n.Children (d ++ [c]) h calls
          (fun x hx => hcl c x ⟨n, hn, hx⟩) (by omega)
        obtain ⟨d1, h1, ks1, t1, e1, _, hx1⟩ :=
          dfsChildren_sound g hk f n.Children (d ++ [c]) h calls w2 hw2
        have hd1 : g.undiscovered d1 ≤ f + 1 := by
          have := undiscovered_mono g (d ++ [c]) d1
            (fun x hx => (hx1.mem_iff x).2 (Or.inl hx))
          omega
        subst e1
        obtain ⟨w, hw⟩ := ih d1 h1 (calls ++ t1 ++ [n]) hkeys' hd1
        refine ⟨w, ?_⟩
        rw [dfsChildren_fresh g _ c cs d h calls hc, hn, dfs, hw2]
        exact hw

/-- The run of `DFS` from a key of a closed graph: it returns, `start` is visited
last, and the loop over the children of `start` is described by `Explore`. -/
theorem DFS_explore (g : Graph) (hk : g.KindOK) (hcl : g.Closed) (start : String)
    (hs : g.IsKey start) (fuel : Nat) (hf : g.Vertices.length ≤ fuel) :
    ∃ d' h' ks t n, DFS fuel g start = .ok (g.during d' h', t ++ [n]) ∧
      g.node start = some n ∧ g.VisitedAt ks t ∧
      Explore g n.Children [start] g.hasCycles d' h' ks := by
  obtain ⟨n, hn⟩ := (g.isKey_iff start).1 hs
  have hlt := undiscovered_lt g [] start hs (by simp)
  have hle := undiscovered_le g []
  have e0 : DFS fuel g start = dfs fuel (some n) (g.during [start] g.hasCycles, []) := by
    have hn0 : ({ g with discovered := [], visited := [] } : Graph).node start = some n := hn
    unfold DFS
    simp only [hn0]
    have hn1 : ({ g with discovered := setAdd [] start, visited := [] } : Graph).node start
        = some n := hn
    rw [hn1]
    rfl
  cases fuel with
  | zero =>
    simp only [List.nil_append] at hlt
    omega
  | succ f =>
    simp only [List.nil_append] at hlt
    obtain ⟨w, hw⟩ := dfsChildren_total g hk hcl f n.Children [start] g.hasCycles []
      (fun x hx => hcl start x ⟨n, hn, hx⟩) (by omega)
    obtain ⟨d', h', ks, t, e, hv, hx⟩ :=
      dfsChildren_sound g hk f n.Children [start] g.hasCycles [] w hw
    subst e
    refine ⟨d', h', ks, t, n, ?_, hn, hv, hx⟩
    rw [e0, dfs, hw]
    simp [Res.bind]

/-- What `DFS` visits: the keys `ks` of a run are without repetition and are the
keys that can be reached from `start`. -/
theorem explore_start_reachable {g : Graph} {start : String} {n : Node}
    {h : Bool} {d' : List String} {h' : Bool} {ks : List String}
    (hn : g.node start = some n) (hx : Explore g n.Children [start] h d' h' ks) :
    (ks ++ [start]).Nodup ∧ ∀ k, k ∈ ks ++ [start] ↔ g.Reachable start k := by
  have hnd := hx.nodup
  constructor
  · refine List.Nodup.append hnd.1 (List.nodup_singleton _) ?_
    intro x h1 h2
    exact hnd.2 x h1 h2
  · intro k
    constructor
    · intro hmem
      rcases List.mem_append.1 hmem with h1 | h1
      · obtain ⟨c, hc, hr⟩ := hx.reach k h1
        exact Relation.ReflTransGen.head ⟨n, hn, hc⟩ hr
      · rw [List.mem_singleton.1 h1]
        exact Relation.ReflTransGen.refl
    · intro hr
      have hall : ∀ x, g.Reachable start x → x ∈ d' := by
        intro x hrx
        induction hrx with
        | refl => exact (hx.mem_iff start).2 (Or.inl (by simp))
        | tail _ hyz ih =>
          rcases (hx.mem_iff _).1 ih with h1 | h1
          · rw [List.mem_singleton.1 h1] at hyz
            obtain ⟨m, hm, hz⟩ := hyz
            rw [hn] at hm
            cases hm
            exact hx.children_mem _ hz
          · exact hx.edges_mem _ h1 _ hyz
      rcases (hx.mem_iff k).1 (hall k hr) with h1 | h1
      · exact List.mem_append_right _ h1
      · exact List.mem_append_left _ h1

/-- C1: on a graph of kind Directed or Undirected in which every child name is a
key, from a start that is a key and with fuel for every vertex, `DFS` returns, and
`visit` was called on the nodes stored under a list of keys without repetition that
holds exactly the keys reachable from `start`. -/
theorem DFS_visits_reachable_once (g : Graph) (start : String) (fuel : Nat)
    (hk : g.Type_ = Directed ∨ g.Type_ = Undirected)
    (hcl : ∀ u n, g.node u = some n → ∀ c ∈ n.Children, c ∈ g.keys)
    (hs : start ∈ g.keys) (hf : g.Vertices.length ≤ fuel) :
    ∃ g' calls ks, DFS fuel g start = .ok (g', calls) ∧
      List.Forall₂ (fun k n => g.node k = some n) ks calls ∧
      ks.Nodup ∧ ∀ k, k ∈ ks ↔ g.Reachable start k := by
  have hcl' : g.Closed := fun u v ⟨n, hn, hv⟩ => hcl u n hn v hv
  obtain ⟨d', h', ks, t, n, hrun, hn, hv, hx⟩ := DFS_explore g hk hcl' start hs fuel hf
  obtain ⟨hnd, hreach⟩ := explore_start_reachable hn hx
  exact ⟨_, _, ks ++ [start], hrun, VisitedAt.append hv (VisitedAt.single hn), hnd, hreach⟩

theorem closed_of_closedCheck (g : Graph) (h : g.closedCheck = true) :
    ∀ u n, g.node u = some n → ∀ c ∈ n.Children, c ∈ g.keys := by
  intro u n hn c hc
  have hmem := mapGet_some_mem g.Vertices u n hn
  unfold Graph.closedCheck at h
  rw [List.all_eq_true] at h
  have h1 := h (u, n) hmem
  rw [List.all_eq_true] at h1
  exact of_decide_eq_true (h1 c hc)

/-- C1 at the graph of the DFS test. -/
theorem DFS_visits_reachable_once_witness :
    ∃ g' calls ks, DFS 2 testGraph "node1" = .ok (g', calls) ∧
      List.Forall₂ (fun k n => testGraph.node k = some n) ks calls ∧
      ks.Nodup ∧ ∀ k, k ∈ ks ↔ testGraph.Reachable "node1" k :=
  DFS_visits_reachable_once testGraph "node1" 2 (Or.inl rfl)
    (closed_of_closedCheck testGraph (by decide)) (by decide) (by decide)

theorem during_self (g : Graph) (hv : g.visited = []) :
    g.during g.discovered g.hasCycles = g := by
  cases g
  simp only [Graph.during] at *
  subst hv
  rfl

/-- C2: `DFS` visits in post-order. For a graph of kind Directed or Undirected:
a call of `dfs` on a node `n`, made with an empty `visited`, that returns has
called `visit` on the nodes first discovered during the call, each once, and then
on `n`; on a graph in which every child name is a key, `DFS` from a key returns and
its last visit is on the start node; on `{node1: [node2]}`, directed, from `node1`
the visits are `[node2, node1]`. -/
theorem DFS_post_order (g : Graph) (hk : g.Type_ = Directed ∨ g.Type_ = Undirected) :
    (∀ fuel n calls g' calls', g.visited = [] →
      dfs fuel (some n) (g, calls) = .ok (g', calls') →
      ∃ ks t, calls' = calls ++ t ++ [n] ∧
        List.Forall₂ (fun k m => g.node k = some m) ks t ∧ ks.Nodup ∧
        ∀ k, k ∈ ks ↔ (k ∈ g'.discovered ∧ k ∉ g.discovered)) ∧
    (∀ start fuel, (∀ u n, g.node u = some n → ∀ c ∈ n.Children, c ∈ g.keys) →
      start ∈ g.keys → g.Vertices.length ≤ fuel →
      ∃ g' t n, DFS fuel g start = .ok (g', t ++ [n]) ∧ g.node start = some n) ∧
    (∃ g', DFS 2 (FromAdjacencyList pairList) "node1"
      = .ok (g', [{ Name := "node2", Children := [] },
                  { Name := "node1", Children := ["node2"] }])) := by
  refine ⟨?_, ?_, ⟨(FromAdjacencyList pairList).during ["node1", "node2"] false, by decide⟩⟩
  · intro fuel n calls g' calls' hv hrun
    rw [← during_self g hv] at hrun
    cases fuel with
    | zero => simp [dfs] at hrun
    | succ f =>
      rw [dfs] at hrun
      obtain ⟨w, hw, hret⟩ := Res.bind_eq_ok _ _ _ hrun
      obtain ⟨d', h', ks, t, e, hvis, hx⟩ :=
        dfsChildren_sound g hk f n.Children g.discovered g.hasCycles calls w hw
      subst e
      simp only [Res.ok.injEq, Prod.mk.injEq] at hret
      obtain ⟨hg', hc'⟩ := hret
      subst hg' hc'
      refine ⟨ks, t, rfl, hvis, hx.nodup.1, ?_⟩
      intro k
      constructor
      · intro hmem
        exact ⟨(hx.mem_iff k).2 (Or.inr hmem), hx.nodup.2 k hmem⟩
      · rintro ⟨h1, h2⟩
        rcases (hx.mem_iff k).1 h1 with h3 | h3
        · exact absurd h3 h2
        · exact h3
  · intro start fuel hcl hs hf
    have hcl' : g.Closed := fun u v ⟨n, hn, hv⟩ => hcl u n hn v hv
    obtain ⟨d', h', ks, t, n, hrun, hn, _, _⟩ := DFS_explore g hk hcl' start hs fuel hf
    exact ⟨_, t, n, hrun, hn⟩

/-- C2 at the graph of the DFS test. -/
theorem DFS_post_order_witness :
    (∀ fuel n calls g' calls', testGraph.visited = [] →
      dfs fuel (some n) (testGraph, calls) = .ok (g', calls') →
      ∃ ks t, calls' = calls ++ t ++ [n] ∧
        List.Forall₂ (fun k m => testGraph.node k = some m) ks t ∧ ks.Nodup ∧
        ∀ k, k ∈ ks ↔ (k ∈ g'.discovered ∧ k ∉ testGraph.discovered)) ∧
    (∀ start fuel,
      (∀ u n, testGraph.node u = some n → ∀ c ∈ n.Children, c ∈ testGraph.keys) →
      start ∈ testGraph.keys → testGraph.Vertices.length ≤ fuel →
      ∃ g' t n, DFS fuel testGraph start = .ok (g', t ++ [n]) ∧
        testGraph.node start = some n) ∧
    (∃ g', DFS 2 (FromAdjacencyList pairList) "node1"
      = .ok (g', [{ Name := "node2", Children := [] },
                  { Name := "node1", Children := ["node2"] }])) :=
  DFS_post_order testGraph (Or.inl rfl)

/-! ### The cycle flag -/

theorem orFlag_orFlag (a b : Bool) (w : Graph × List Node) :
    orFlag a (orFlag b w) = orFlag (a || b) w := by
  simp [orFlag, Graph.setFlag, Bool.or_assoc]

theorem Res.map_map_orFlag (a b : Bool) (r : Res (Graph × List Node)) :
    (r.map (orFlag b)).map (orFlag a) = r.map (orFlag (a || b)) := by
  cases r with
  | ok w => simp [Res.map, orFlag_orFlag]
  | panic msg => rfl
  | outOfFuel => rfl

theorem dfsChildren_cons
    (rec : Option Node → Graph × List Node → Res (Graph × List Node))
    (c : String) (cs : List String) (G : Graph) (calls : List Node) :
    dfsChildren rec (c :: cs) (G, calls)
      = if c ∈ G.discovered ∧
            (G.Type_ = Undirected ∨ (G.Type_ = Directed ∧ c ∉ G.visited)) then
          dfsChildren rec cs ({ G with hasCycles := true }, calls)
        else
          (rec (({ G with discovered := setAdd G.discovered c } : Graph).node c)
            ({ G with discovered := setAdd G.discovered c }, calls)).bind
            (dfsChildren rec cs) := by
  rw [dfsChildren]
  by_cases h1 : c ∈ G.discovered
  · by_cases h2 : G.Type_ = Undirected
    · rw [if_pos (⟨h1, Or.inl h2⟩ :
        c ∈ G.discovered ∧ (G.Type_ = Undirected ∨ (G.Type_ = Directed ∧ c ∉ G.visited)))]
      simp only [if_pos h1, if_pos h2]
    · by_cases h3 : G.Type_ = Directed ∧ c ∉ G.visited
      · rw [if_pos (⟨h1, Or.inr h3⟩ :
          c ∈ G.discovered ∧ (G.Type_ = Undirected ∨ (G.Type_ = Directed ∧ c ∉ G.visited)))]
        simp only [if_pos h1, if_neg h2, if_pos h3]
      · rw [if_neg (fun h => h.2.elim h2 h3 :
          ¬ (c ∈ G.discovered ∧
            (G.Type_ = Undirected ∨ (G.Type_ = Directed ∧ c ∉ G.visited))))]
        simp only [if_pos h1, if_neg h2, if_neg h3]
  · rw [if_neg (fun h => h1 h.1 :
      ¬ (c ∈ G.discovered ∧
        (G.Type_ = Undirected ∨ (G.Type_ = Directed ∧ c ∉ G.visited))))]
    simp only [if_neg h1]

theorem Res.bind_map_orFlag (r : Res (Graph × List Node)) (a : Bool)
    (k : Graph × List Node → Res (Graph × List Node))
    (hk : ∀ w, k (orFlag a w) = (k w).map (orFlag a)) :
    (r.map (orFlag a)).bind k = (r.bind k).map (orFlag a) := by
  cases r with
  | ok w => exact hk w
  | panic msg => rfl
  | outOfFuel => rfl

theorem dfsChildren_flag
    (rec : Option Node → Graph × List Node → Res (Graph × List Node))
    (hrec : ∀ n G calls, rec n (G, calls)
      = (rec n (G.setFlag false, calls)).map (orFlag G.hasCycles)) :
    ∀ (cs : List String) (G : Graph) (calls : List Node),
      dfsChildren rec cs (G, calls)
        = (dfsChildren rec cs (G.setFlag false, calls)).map (orFlag G.hasCycles) := by
  intro cs
  induction cs with
  | nil =>
    intro G calls
    rw [dfsChildren, dfsChildren]
    simp [Res.map, orFlag, Graph.setFlag]
  | cons c cs ih =>
    intro G calls
    have hflag : ∀ G' : Graph, G'.setFlag false = G.setFlag false →
        dfsChildren rec cs (G'.setFlag true, calls)
          = (dfsChildren rec cs (G.setFlag false, calls)).map (orFlag true) := by
      intro G' hG'
      have := ih (G'.setFlag true) calls
      rw [this]
      have e : (G'.setFlag true).setFlag false = G.setFlag false := hG'
      rw [e]
      rfl
    by_cases h1 : c ∈ G.discovered ∧
        (G.Type_ = Undirected ∨ (G.Type_ = Directed ∧ c ∉ G.visited))
    · have h1' : c ∈ (G.setFlag false).discovered ∧
          ((G.setFlag false).Type_ = Undirected ∨
            ((G.setFlag false).Type_ = Directed ∧ c ∉ (G.setFlag false).visited)) := h1
      rw [dfsChildren_cons, dfsChildren_cons, if_pos h1, if_pos h1']
      have e1 := hflag G rfl
      simp only [Graph.setFlag] at e1 ⊢
      rw [e1, Res.map_map_orFlag]
      simp
    · have h1' : ¬ (c ∈ (G.setFlag false).discovered ∧
          ((G.setFlag false).Type_ = Undirected ∨
            ((G.setFlag false).Type_ = Directed ∧ c ∉ (G.setFlag false).visited))) := h1
      rw [dfsChildren_cons, dfsChildren_cons, if_neg h1, if_neg h1']
      show (rec (({ G with discovered := setAdd G.discovered c } : Graph).node c)
            ({ G with discovered := setAdd G.discovered c }, calls)).bind
            (dfsChildren rec cs)
        = ((rec (({ G with discovered := setAdd G.discovered c } : Graph).node c)
            (({ G with discovered := setAdd G.discovered c } : Graph).setFlag false,
              calls)).bind (dfsChildren rec cs)).map (orFlag G.hasCycles)
      rw [hrec (({ G with discovered := setAdd G.discovered c } : Graph).node c)
        { G with discovered := setAdd G.discovered c } calls]
      apply Res.bind_map_orFlag
      intro w
      have e3 := ih w.1 w.2
      have e4 := ih (orFlag G.hasCycles w).1 w.2
      have e5 : dfsChildren rec cs (orFlag G.hasCycles w)
          = (dfsChildren rec cs (w.1.setFlag false, w.2)).map
              (orFlag (G.hasCycles || w.1.hasCycles)) := e4
      rw [e5, e3, Res.map_map_orFlag]

theorem dfs_flag (fuel : Nat) :
    ∀ (n : Option Node) (G : Graph) (calls : List Node),
      dfs fuel n (G, calls)
        = (dfs fuel n (G.setFlag false, calls)).map (orFlag G.hasCycles) := by
  induction fuel with
  | zero =>
    intro n G calls
    rfl
  | succ f ih =>
    intro n G calls
    cases n with
    | none => rfl
    | some node =>
      rw [dfs, dfs, dfsChildren_flag (dfs f) ih node.Children G calls]
      cases dfsChildren (dfs f) node.Children (G.setFlag false, calls) with
      | ok w => rfl
      | panic msg => rfl
      | outOfFuel => rfl

theorem DFS_eq (g : Graph) (start : String) (fuel : Nat) :
    DFS fuel g start =
      match g.node start with
      | none => .panic "Start node not found"
      | some _ =>
        dfs fuel (g.node start)
          ({ g with discovered := setAdd [] start, visited := [] }, []) := rfl

/-- C9, as amended: `DFS` does not reset the cycle flag. Its outcome is the outcome
on the same graph with the flag cleared, with the flag of before the call or-ed into
the resulting flag; so after a call made with a false flag `HasCycles()` is what
that traversal alone computed, and a true flag stays true. -/
theorem DFS_keeps_flag (g : Graph) (start : String) (fuel : Nat) :
    DFS fuel g start = (DFS fuel (g.setFlag false) start).map (orFlag g.hasCycles) := by
  rw [DFS_eq, DFS_eq]
  have e : (g.setFlag false).node start = g.node start := rfl
  rw [e]
  cases g.node start with
  | none => rfl
  | some n =>
    exact dfs_flag fuel (some n) { g with discovered := setAdd [] start, visited := [] } []

/-- C9 as stated fails: on the directed graph `{A: [A], B: []}` a `DFS` from `A`
leaves the flag true, a following `DFS` from `B` still reports a cycle, while the
same `DFS` from `B` on the freshly built graph reports none. -/
theorem DFS_flag_depends_on_before :
    flagAfter (DFS 2 (FromAdjacencyList loopList) "A") = .ok true ∧
    flagAfter ((DFS 2 (FromAdjacencyList loopList) "A").bind fun w => DFS 2 w.1 "B")
      = .ok true ∧
    flagAfter (DFS 2 (FromAdjacencyList loopList) "B") = .ok false := by
  decide

theorem diamond_rank_edge (u v : String) (h : (FromAdjacencyList diamondList).Edge u v) :
    diamondRank v < diamondRank u := by
  rw [edge_fromAdjacencyList] at h
  rcases h with ⟨r, hr, hu, hv⟩ | ⟨hkind, _⟩
  · simp only [diamondList, List.mem_cons, List.mem_singleton, List.not_mem_nil,
      or_false] at hr
    rcases hr with rfl | rfl
    · simp only [List.mem_cons, List.mem_singleton, List.not_mem_nil, or_false] at hv
      rcases hv with rfl | rfl <;> subst hu <;> decide
    · simp only [List.mem_cons, List.mem_singleton, List.not_mem_nil, or_false] at hv
      subst hu hv
      decide
  · exact absurd hkind (by decide)

/-- C5 fails on the code: the directed graph `{A: [B, C], B: [C]}` has no cycle, yet
after `DFS` from `A` the flag is true, in either enumeration order of the children
of `A`: `dfs` never marks a node visited, so the edge to the finished node `C` is
taken for a back edge. -/
theorem DFS_flags_cross_edge :
    (∀ v, ¬ Relation.TransGen (FromAdjacencyList diamondList).Edge v v) ∧
    flagAfter (DFS 3 (FromAdjacencyList diamondList) "A") = .ok true ∧
    flagAfter (DFS 3 diamondGraphSwapped "A") = .ok true := by
  refine ⟨?_, by decide, by decide⟩
  intro v hv
  have hlt : ∀ a b, Relation.TransGen (FromAdjacencyList diamondList).Edge a b →
      diamondRank b < diamondRank a := by
    intro a b hab
    induction hab with
    | single h => exact diamond_rank_edge _ _ h
    | tail _ h ih => exact lt_trans (diamond_rank_edge _ _ h) ih
  exact lt_irrefl _ (hlt v v hv)

/-- C7 fails on the code: the undirected graph built from the single edge `A -> B`
is a tree (its only edges are `A - B` in both directions), yet after `DFS` from `A`
the flag is true: the edge from `B` back to its parent `A` is taken for a cycle. -/
theorem DFS_flags_tree_edge :
    (∀ u v, (FromAdjacencyList edgeList).Edge u v ↔
      (u = "A" ∧ v = "B") ∨ (u = "B" ∧ v = "A")) ∧
    flagAfter (DFS 2 (FromAdjacencyList edgeList) "A") = .ok true := by
  refine ⟨?_, by decide⟩
  intro u v
  rw [edge_fromAdjacencyList]
  simp [edgeList, Undirected]

/-! ### Enumeration orders -/

theorem Graph.SameMaps.refl (g : Graph) : g.SameMaps g := by
  refine ⟨rfl, rfl, rfl, fun _ => Iff.rfl, ?_⟩
  intro k a b ha hb
  rw [ha] at hb
  cases hb
  exact ⟨rfl, List.Perm.refl _⟩

theorem Graph.SameMaps.edge_iff {g h : Graph} (hs : g.SameMaps h) (u v : String) :
    g.Edge u v ↔ h.Edge u v := by
  obtain ⟨_, _, _, hkeys, hnodes⟩ := hs
  constructor
  · rintro ⟨a, ha, hv⟩
    obtain ⟨b, hb⟩ := (h.isKey_iff u).1 ((hkeys u).1 ((g.isKey_iff u).2 ⟨a, ha⟩))
    exact ⟨b, hb, (hnodes u a b ha hb).2.subset hv⟩
  · rintro ⟨b, hb, hv⟩
    obtain ⟨a, ha⟩ := (g.isKey_iff u).1 ((hkeys u).2 ((h.isKey_iff u).2 ⟨b, hb⟩))
    exact ⟨a, ha, (hnodes u a b ha hb).2.symm.subset hv⟩

theorem Graph.SameMaps.closed {g h : Graph} (hs : g.SameMaps h) (hc : h.Closed) : g.Closed := by
  intro u v huv
  exact (hs.2.2.2.1 v).2 (hc u v ((hs.edge_iff u v).1 huv))

theorem Graph.SameMaps.kindOK {g : Graph} {adjList : AdjacencyList}
    (hs : g.SameMaps (FromAdjacencyList adjList))
    (hk : adjList.Kind = Directed ∨ adjList.Kind = Undirected) : g.KindOK := by
  unfold Graph.KindOK
  rw [hs.1, type_fromAdjacencyList]
  exact hk

theorem Graph.SameMaps.flag {g : Graph} {adjList : AdjacencyList}
    (hs : g.SameMaps (FromAdjacencyList adjList)) : g.hasCycles = false := by
  rw [hs.2.2.1, flag_fromAdjacencyList]

theorem Graph.SameMaps.built_closed {g : Graph} {adjList : AdjacencyList}
    (hs : g.SameMaps (FromAdjacencyList adjList)) : g.Closed :=
  hs.closed (Built.fromAdjacencyList adjList).closed

theorem edge_symm_fromAdjacencyList (adjList : AdjacencyList)
    (hk : adjList.Kind = Undirected) (u v : String)
    (h : (FromAdjacencyList adjList).Edge u v) : (FromAdjacencyList adjList).Edge v u := by
  rw [edge_fromAdjacencyList] at h ⊢
  rcases h with ⟨r, hr, hu, hv⟩ | ⟨_, r, hr, hu, hv⟩
  · exact Or.inr ⟨hk, r, hr, hv, hu⟩
  · exact Or.inl ⟨r, hr, hv, hu⟩

/-! ### Cycle detection -/

theorem Explore.nil_inv {g : Graph} {d : List String} {h : Bool} {d' : List String}
    {h' : Bool} {ks : List String} (hx : Explore g [] d h d' h' ks) :
    d' = d ∧ h' = h ∧ ks = [] := by
  cases hx
  exact ⟨rfl, rfl, rfl⟩

theorem Explore.cons_inv {g : Graph} {c : String} {cs d : List String} {h : Bool}
    {d' : List String} {h' : Bool} {ks : List String}
    (hx : Explore g (c :: cs) d h d' h' ks) :
    (c ∈ d ∧ Explore g cs d true d' h' ks) ∨
    (c ∉ d ∧ ∃ n d1 h1 ks1 ks2, g.node c = some n ∧
      Explore g n.Children (d ++ [c]) h d1 h1 ks1 ∧ Explore g cs d1 h1 d' h' ks2 ∧
      ks = ks1 ++ c :: ks2) := by
  cases hx with
  | seen _ _ _ _ _ _ _ hc hx => exact Or.inl ⟨hc, hx⟩
  | fresh _ _ n _ _ d1 h1 ks1 _ _ ks2 hc hn hx1 hx2 =>
    exact Or.inr ⟨hc, n, d1, h1, ks1, ks2, hn, hx1, hx2, rfl⟩

theorem goBack_nil (g : Graph) : g.GoBack [] := by
  intro pre x post h
  cases pre <;> cases h

theorem goBack_append_of {g : Graph} {a b : List String} (ha : g.GoBack a)
    (hb : ∀ pre z post, b = pre ++ z :: post → ∀ y, g.Edge z y → y ∈ a ++ pre) :
    g.GoBack (a ++ b) := by
  intro pre z post h y hzy
  rcases List.append_eq_append_iff.1 h with ⟨a', h1, h2⟩ | ⟨c', h1, h2⟩
  · rw [h1]
    exact hb a' z post h2 y hzy
  · cases c' with
    | nil =>
      simp only [List.append_nil, List.nil_append] at h1 h2
      have := hb [] z post h2.symm y hzy
      rw [List.append_nil] at this
      exact h1 ▸ this
    | cons z' c'' =>
      simp only [List.cons_append, List.cons.injEq] at h2
      obtain ⟨rfl, _⟩ := h2
      exact ha pre z c'' h1 y hzy

theorem goBack_append {g : Graph} {a b : List String} (ha : g.GoBack a)
    (hb : g.GoBack b) : g.GoBack (a ++ b) :=
  goBack_append_of ha fun pre z post h y hzy =>
    List.mem_append_right _ (hb pre z post h y hzy)

theorem goBack_snoc {g : Graph} {a : List String} {x : String} (ha : g.GoBack a)
    (hx : ∀ y, g.Edge x y → y ∈ a) : g.GoBack (a ++ [x]) := by
  apply goBack_append_of ha
  intro pre z post h y hzy
  cases pre with
  | nil =>
    simp only [List.nil_append, List.cons.injEq] at h
    rw [← h.1] at hzy
    simpa using hx y hzy
  | cons p pre' =>
    simp only [List.cons_append, List.cons.injEq] at h
    have := h.2
    cases pre' <;> cases this

theorem goBack_transGen {g : Graph} {ks : List String} (hg : g.GoBack ks) (n : Nat) :
    ∀ pre x post z, pre.length ≤ n → ks = pre ++ x :: post →
      Relation.TransGen g.Edge x z → z ∈ pre := by
  induction n with
  | zero =>
    intro pre x post z hlen hks hxz
    obtain ⟨y, hxy, _⟩ := Relation.TransGen.head'_iff.1 hxz
    have hy := hg pre x post hks y hxy
    have : pre = [] := List.length_eq_zero.1 (Nat.le_zero.1 hlen)
    rw [this] at hy
    cases hy
  | succ n ih =>
    intro pre x post z hlen hks hxz
    obtain ⟨y, hxy, hyz⟩ := Relation.TransGen.head'_iff.1 hxz
    have hy := hg pre x post hks y hxy
    rcases Relation.reflTransGen_iff_eq_or_transGen.1 hyz with rfl | hyz
    · exact hy
    · obtain ⟨p1, p2, hp⟩ := List.append_of_mem hy
      have hlen1 : p1.length ≤ n := by
        rw [hp] at hlen
        simp only [List.length_append, List.length_cons] at hlen
        omega
      have hks1 : ks = p1 ++ y :: (p2 ++ x :: post) := by
        rw [hks, hp]
        simp
      have := ih p1 y _ z hlen1 hks1 hyz
      rw [hp]
      exact List.mem_append_left _ this

theorem goBack_no_cycle {g : Graph} {ks : List String} (hg : g.GoBack ks) (n : Nat) :
    ∀ pre x post, pre.length ≤ n → ks = pre ++ x :: post →
      ¬ Relation.TransGen g.Edge x x := by
  induction n with
  | zero =>
    intro pre x post hlen hks hxx
    have hx := goBack_transGen hg 0 pre x post x hlen hks hxx
    have : pre = [] := List.length_eq_zero.1 (Nat.le_zero.1 hlen)
    rw [this] at hx
    cases hx
  | succ n ih =>
    intro pre x post hlen hks hxx
    have hx := goBack_transGen hg (n + 1) pre x post x hlen hks hxx
    obtain ⟨p1, p2, hp⟩ := List.append_of_mem hx
    have hlen1 : p1.length ≤ n := by
      rw [hp] at hlen
      simp only [List.length_append, List.length_cons] at hlen
      omega
    have hks1 : ks = p1 ++ x :: (p2 ++ x :: post) := by
      rw [hks, hp]
      simp
    exact ih p1 x _ hlen1 hks1 hxx

theorem Explore.goBack {g : Graph} {cs d : List String} {h : Bool} {d' : List String}
    {h' : Bool} {ks : List String} (hx : Explore g cs d h d' h' ks) :
    h' = false → (∀ c ∈ cs, c ∈ ks) ∧ g.GoBack ks := by
  induction hx with
  | done d h => exact fun _ => ⟨by simp, goBack_nil g⟩
  | seen c cs d h d' h' ks _ hx _ =>
    intro hf
    rw [hx.flag_mono rfl] at hf
    cases hf
  | fresh c cs n d h d1 h1 ks1 d' h' ks2 _ hn _ hx2 ih1 ih2 =>
    intro hf
    have hf1 : h1 = false := by
      cases h1 with
      | false => rfl
      | true =>
        rw [hx2.flag_mono rfl] at hf
        cases hf
    obtain ⟨hc1, hg1⟩ := ih1 hf1
    obtain ⟨hc2, hg2⟩ := ih2 hf
    constructor
    · intro x hmem
      rcases List.mem_cons.1 hmem with rfl | hmem
      · simp
      · exact List.mem_append_right _ (List.mem_cons_of_mem _ (hc2 x hmem))
    · have hsn : g.GoBack (ks1 ++ [c]) := by
        apply goBack_snoc hg1
        rintro y ⟨m, hm, hy⟩
        rw [hn] at hm
        cases hm
        exact hc1 y hy
      have := goBack_append hsn hg2
      simpa using this

/-- C6: on a directed graph built by `FromAdjacencyList`, in any enumeration order
of its maps, if a node that lies on a directed cycle can be reached from the key
`start`, then `DFS` from `start` returns and `HasCycles()` is true afterwards. -/
theorem DFS_directed_cycle_flagged (adjList : AdjacencyList) (g : Graph)
    (start : String) (fuel : Nat) (hkind : adjList.Kind = Directed)
    (hg : g.SameMaps (FromAdjacencyList adjList)) (hs : start ∈ g.keys)
    (hcyc : ∃ v, g.Reachable start v ∧ Relation.TransGen g.Edge v v)
    (hf : g.Vertices.length ≤ fuel) :
    ∃ g' calls, DFS fuel g start = .ok (g', calls) ∧ g'.HasCycles = true := by
  obtain ⟨d', h', ks, t, n, hrun, hn, _, hx⟩ :=
    DFS_explore g (hg.kindOK (Or.inl hkind)) hg.built_closed start hs fuel hf
  refine ⟨_, _, hrun, ?_⟩
  show h' = true
  cases hh : h' with
  | true => rfl
  | false =>
    exfalso
    obtain ⟨hch, hgb⟩ := hx.goBack hh
    have hall : g.GoBack (ks ++ [start]) := by
      apply goBack_snoc hgb
      rintro y ⟨m, hm, hy⟩
      rw [hn] at hm
      cases hm
      exact hch y hy
    obtain ⟨v, hv, hvv⟩ := hcyc
    have hmem := ((explore_start_reachable hn hx).2 v).2 hv
    obtain ⟨pre, post, hp⟩ := List.append_of_mem hmem
    exact goBack_no_cycle hall pre.length pre v post le_rfl hp hvv

/-- C6 at the directed graph `{A: [B], B: [A]}` from `A`. -/
theorem DFS_directed_cycle_flagged_witness :
    ∃ g' calls, DFS 2 (FromAdjacencyList cycleList) "A" = .ok (g', calls) ∧
      g'.HasCycles = true :=
  DFS_directed_cycle_flagged cycleList (FromAdjacencyList cycleList) "A" 2 rfl
    (Graph.SameMaps.refl _) (by decide)
    ⟨"A", Relation.ReflTransGen.refl,
      Relation.TransGen.tail
        (Relation.TransGen.single
          (⟨{ Name := "A", Children := ["B"] }, by decide, by decide⟩ :
            (FromAdjacencyList cycleList).Edge "A" "B"))
        (⟨{ Name := "B", Children := ["A"] }, by decide, by decide⟩ :
          (FromAdjacencyList cycleList).Edge "B" "A")⟩
    (by decide)

/-- C8: on an undirected graph built by `FromAdjacencyList`, in any enumeration
order of its maps: a call of `dfs` that finds a child already discovered returns
with the flag set; and `DFS` from a key `start` returns with `HasCycles()` true
exactly when `start` has a neighbour, the edge from that neighbour back to `start`
being counted as a cycle. -/
theorem DFS_undirected_flags (adjList : AdjacencyList) (g : Graph)
    (hkind : adjList.Kind = Undirected) (hg : g.SameMaps (FromAdjacencyList adjList)) :
    (∀ fuel n d h calls g' calls',
      dfs fuel (some n) (g.during d h, calls) = .ok (g', calls') →
      (∃ c ∈ n.Children, c ∈ d) → g'.HasCycles = true) ∧
    (∀ start fuel, start ∈ g.keys → g.Vertices.length ≤ fuel →
      ∃ g' calls, DFS fuel g start = .ok (g', calls) ∧
        (g'.HasCycles = true ↔ ∃ v, g.Edge start v)) := by
  have hk : g.KindOK := hg.kindOK (Or.inr hkind)
  constructor
  · intro fuel n d h calls g' calls' hrun hseen
    cases fuel with
    | zero => simp [dfs] at hrun
    | succ f =>
      rw [dfs] at hrun
      obtain ⟨w, hw, hret⟩ := Res.bind_eq_ok _ _ _ hrun
      obtain ⟨d', h', ks, t, e, _, hx⟩ := dfsChildren_sound g hk f n.Children d h calls w hw
      subst e
      simp only [Res.ok.injEq, Prod.mk.injEq] at hret
      rw [← hret.1]
      exact hx.flag_of_seen hseen
  · intro start fuel hs hf
    obtain ⟨d', h', ks, t, n, hrun, hn, _, hx⟩ :=
      DFS_explore g hk hg.built_closed start hs fuel hf
    refine ⟨_, _, hrun, ?_⟩
    show h' = true ↔ ∃ v, g.Edge start v
    rw [hg.flag] at hx
    cases hch : n.Children with
    | nil =>
      rw [hch] at hx
      obtain ⟨_, hh, _⟩ := hx.nil_inv
      rw [hh]
      constructor
      · intro hf
        cases hf
      · rintro ⟨v, m, hm, hv⟩
        rw [hn] at hm
        cases hm
        rw [hch] at hv
        cases hv
    | cons c rest =>
      rw [hch] at hx
      have hedge : g.Edge start c := ⟨n, hn, by rw [hch]; exact List.mem_cons_self _ _⟩
      refine ⟨fun _ => ⟨c, hedge⟩, fun _ => ?_⟩
      rcases hx.cons_inv with ⟨_, hx1⟩ | ⟨_, m, d1, h1, ks1, ks2, hm, hx1, hx2, _⟩
      · exact hx1.flag_mono rfl
      · have hback : g.Edge c start :=
          (hg.edge_iff c start).2
            (edge_symm_fromAdjacencyList adjList hkind start c ((hg.edge_iff start c).1 hedge))
        obtain ⟨m', hm', hstart⟩ := hback
        rw [hm] at hm'
        cases hm'
        exact hx2.flag_mono (hx1.flag_of_seen ⟨start, hstart, by simp⟩)

/-- C8 at the undirected graph built from the single edge `A -> B`. -/
theorem DFS_undirected_flags_witness :
    (∀ fuel n d h calls g' calls',
      dfs fuel (some n) ((FromAdjacencyList edgeList).during d h, calls)
        = .ok (g', calls') →
      (∃ c ∈ n.Children, c ∈ d) → g'.HasCycles = true) ∧
    (∀ start fuel, start ∈ (FromAdjacencyList edgeList).keys →
      (FromAdjacencyList edgeList).Vertices.length ≤ fuel →
      ∃ g' calls, DFS fuel (FromAdjacencyList edgeList) start = .ok (g', calls) ∧
        (g'.HasCycles = true ↔ ∃ v, (FromAdjacencyList edgeList).Edge start v)) :=
  DFS_undirected_flags edgeList (FromAdjacencyList edgeList) rfl (Graph.SameMaps.refl _)

/-! ### Breadth-first search -/

theorem newKeys_spec (cs : List String) :
    ∀ d : List String, (newKeys d cs).Nodup ∧ (∀ x ∈ newKeys d cs, x ∉ d ∧ x ∈ cs) ∧
      ∀ x ∈ cs, x ∈ d ∨ x ∈ newKeys d cs := by
  induction cs with
  | nil =>
    intro d
    simp [newKeys]
  | cons c cs ih =>
    intro d
    by_cases hc : c ∈ d
    · obtain ⟨h1, h2, h3⟩ := ih d
      rw [newKeys, if_pos hc]
      refine ⟨h1, fun x hx => ⟨(h2 x hx).1, List.mem_cons_of_mem _ (h2 x hx).2⟩, ?_⟩
      intro x hx
      rcases List.mem_cons.1 hx with rfl | hx
      · exact Or.inl hc
      · exact h3 x hx
    · obtain ⟨h1, h2, h3⟩ := ih (d ++ [c])
      rw [newKeys, if_neg hc]
      refine ⟨?_, ?_, ?_⟩
      · refine List.nodup_cons.2 ⟨fun hmem => (h2 c hmem).1 (by simp), h1⟩
      · intro x hx
        rcases List.mem_cons.1 hx with rfl | hx
        · exact ⟨hc, List.mem_cons_self _ _⟩
        · exact ⟨fun hd => (h2 x hx).1 (List.mem_append_left _ hd),
            List.mem_cons_of_mem _ (h2 x hx).2⟩
      · intro x hx
        rcases List.mem_cons.1 hx with rfl | hx
        · exact Or.inr (List.mem_cons_self _ _)
        · rcases h3 x hx with h | h
          · rcases List.mem_append.1 h with h | h
            · exact Or.inl h
            · exact Or.inr (by rw [List.mem_singleton.1 h]; exact List.mem_cons_self _ _)
          · exact Or.inr (List.mem_cons_of_mem _ h)

theorem enqueue_of_lt {α : Type} (cap : Int) (items : List α) (item : α)
    (h : (items.length : Int) < cap) :
    (Queue.mk cap items).Enqueue item = (Queue.mk cap (items ++ [item]), none) := by
  unfold Queue.Enqueue Queue.IsFull
  have : ((items.length : Int) == cap) = false := by
    simp only [beq_eq_false_iff_ne, ne_eq]
    omega
  simp [this]

/-- With room in the queue for every new key, the inner loop of `BFS` returns. -/
theorem bfsChildren_eq (g : Graph) (cap : Int) (v : List String) (cs : List String) :
    ∀ (d : List String) (items : List (Option Node)),
      (items.length : Int) + (newKeys d cs).length ≤ cap →
      bfsChildren cs (g.bfsState d v, Queue.mk cap items)
        = .ok (g.bfsState (d ++ newKeys d cs) v,
            Queue.mk cap (items ++ (newKeys d cs).map g.node)) := by
  induction cs with
  | nil =>
    intro d items _
    simp [bfsChildren, newKeys]
  | cons c cs ih =>
    intro d items hcap
    by_cases hc : c ∈ d
    · rw [newKeys, if_pos hc] at hcap ⊢
      have hc' : c ∈ (g.bfsState d v).discovered := hc
      rw [bfsChildren, if_pos hc']
      exact ih d items hcap
    · rw [newKeys, if_neg hc] at hcap ⊢
      have hc' : c ∉ (g.bfsState d v).discovered := hc
      simp only [List.length_cons, Nat.cast_add, Nat.cast_one] at hcap
      have hlt : (items.length : Int) < cap := by omega
      have hset : setAdd (g.bfsState d v).discovered c = d ++ [c] := setAdd_of_not_mem d c hc
      rw [bfsChildren, if_neg hc']
      simp only [hset]
      have hnode : ({ g.bfsState d v with discovered := d ++ [c] } : Graph).node c = g.node c :=
        rfl
      rw [hnode, enqueue_of_lt cap items (g.node c) hlt]
      have e := ih (d ++ [c]) (items ++ [g.node c])
        (by simp only [List.length_append, List.length_singleton, Nat.cast_add, Nat.cast_one]
            omega)
      simp only [List.append_assoc, List.singleton_append, List.map_cons] at e ⊢
      exact e

theorem nodup_keys_length (g : Graph) (l : List String) (hnd : l.Nodup)
    (hk : ∀ x ∈ l, g.IsKey x) : l.length ≤ g.Vertices.length := by
  have h := (List.subperm_of_subset hnd (fun x hx => hk x hx)).length_le
  simpa [Graph.keys] using h

theorem BInv.step {g : Graph} {start : String} {s s' : BState} (hcl : g.Closed)
    (hi : BInv g start s) (hstep : BfsStep g s s') : BInv g start s' := by
  obtain ⟨u, Qr, n, hQ, hn, rfl⟩ := hstep
  obtain ⟨hnew1, hnew2, hnew3⟩ := newKeys_spec n.Children s.d
  have hu : u ∈ s.d := by
    rw [hi.eq, hQ]
    simp
  have hedge : ∀ x ∈ newKeys s.d n.Children, g.Edge u x :=
    fun x hx => ⟨n, hn, (hnew2 x hx).2⟩
  refine ⟨?_, ?_, ?_, ?_, ?_, ?_⟩
  · show s.d ++ newKeys s.d n.Children = s.T ++ [u] ++ (Qr ++ newKeys s.d n.Children)
    rw [hi.eq, hQ]
    simp
  · exact List.Nodup.append hi.nodup hnew1 (fun x h1 h2 => (hnew2 x h2).1 h1)
  · obtain ⟨rest, hr⟩ := hi.head
    exact ⟨rest ++ newKeys s.d n.Children, by simp [hr]⟩
  · intro x hx
    rcases List.mem_append.1 hx with h | h
    · exact hi.keys x h
    · exact hcl u x (hedge x h)
  · intro x hx
    rcases List.mem_append.1 hx with h | h
    · exact hi.reach x h
    · exact Relation.ReflTransGen.tail (hi.reach u hu) (hedge x h)
  · intro x hx y hxy
    rcases List.mem_append.1 hx with h | h
    · exact List.mem_append_left _ (hi.closed x h y hxy)
    · rw [List.mem_singleton.1 h] at hxy
      obtain ⟨m, hm, hy⟩ := hxy
      rw [hn] at hm
      cases hm
      rcases hnew3 y hy with h1 | h1
      · exact List.mem_append_left _ h1
      · exact List.mem_append_right _ h1

theorem bfsLoop_nil (f : Nat) (G : Graph) (cap : Int) (calls : List Node) :
    bfsLoop (f + 1) (G, Queue.mk cap [], calls) = .ok (G, calls) := rfl

theorem bfsLoop_cons (f : Nat) (G : Graph) (cap : Int) (n : Node)
    (items : List (Option Node)) (calls : List Node) :
    bfsLoop (f + 1) (G, Queue.mk cap (some n :: items), calls)
      = (bfsChildren n.Children (G, Queue.mk cap items)).bind fun w =>
          bfsLoop f ({ w.1 with visited := setAdd w.1.visited n.Name }, w.2,
            calls ++ [n]) := rfl

/-- With fuel for every vertex still to be visited and a queue of capacity `Size`,
the loop of `BFS` returns; its rounds are rounds of `BfsStep`, and it ends with an
empty queue. -/
theorem bfsLoop_run (g : Graph) (start : String) (hcl : g.Closed) (hcap : g.CapOK)
    (fuel : Nat) :
    ∀ (s : BState) (v : List String) (calls : List Node), BInv g start s →
      g.Vertices.length + 1 ≤ fuel + s.T.length →
      ∃ s' v' Tn t,
        bfsLoop fuel (g.bfsState s.d v, Queue.mk g.Size (s.Q.map g.node), calls)
          = .ok (g.bfsState s'.d v', calls ++ t) ∧
        Relation.ReflTransGen (BfsStep g) s s' ∧ s'.Q = [] ∧ s'.T = s.T ++ Tn ∧
        g.VisitedAt Tn t := by
  induction fuel with
  | zero =>
    intro s v calls hi hf
    have h1 := nodup_keys_length g s.d hi.nodup hi.keys
    have h2 : s.T.length ≤ s.d.length := by
      rw [hi.eq]
      simp
    omega
  | succ f ih =>
    intro s v calls hi hf
    cases hQ : s.Q with
    | nil =>
      refine ⟨s, v, [], [], ?_, Relation.ReflTransGen.refl, hQ, by simp, List.Forall₂.nil⟩
      rw [List.map_nil, bfsLoop_nil, List.append_nil]
    | cons u Qr =>
      have hu : u ∈ s.d := by
        rw [hi.eq, hQ]
        simp
      obtain ⟨n, hn⟩ := (g.isKey_iff u).1 (hi.keys u hu)
      have hstep : BfsStep g s
          { d := s.d ++ newKeys s.d n.Children, Q := Qr ++ newKeys s.d n.Children,
            T := s.T ++ [u] } := ⟨u, Qr, n, hQ, hn, rfl⟩
      have hi' := hi.step hcl hstep
      have hlen : s.d.length = s.T.length + (Qr.length + 1) := by
        rw [hi.eq, hQ]
        simp
      have hroom : ((Qr.map g.node).length : Int) + (newKeys s.d n.Children).length
          ≤ g.Size := by
        have h1 := hcap _ hi'.nodup hi'.keys
        simp only [List.length_append, Nat.cast_add] at h1
        simp only [List.length_map]
        omega
      have hfuel : g.Vertices.length + 1 ≤ f + (s.T ++ [u]).length := by
        simp only [List.length_append, List.length_singleton]
        omega
      obtain ⟨s', v', Tn, t, hrun, hsteps, hQ', hT', hvis⟩ :=
        ih _ (setAdd v n.Name) (calls ++ [n]) hi' hfuel
      refine ⟨s', v', u :: Tn, n :: t, ?_, Relation.ReflTransGen.head hstep hsteps, hQ',
        by rw [hT']; simp, List.Forall₂.cons hn hvis⟩
      rw [List.map_cons, hn, bfsLoop_cons, bfsChildren_eq g g.Size v n.Children s.d _ hroom]
      simp only [Res.bind, List.map_append] at hrun ⊢
      rw [List.append_assoc] at hrun
      exact hrun

theorem BFS_eq (maxCap : Int) (g : Graph) (start : String) (fuel : Nat) (n : Node)
    (hs : 0 < g.Size) (hmax : g.Size ≤ maxCap) (hn : g.node start = some n) :
    BFS maxCap fuel g start
      = bfsLoop fuel (g.bfsState [start] [], Queue.mk g.Size [some n], []) := by
  have hq : (NewQueue maxCap g.Size : Res (Queue (Option Node)))
      = .ok (Queue.mk g.Size []) := NewQueue_ok maxCap g.Size (by omega) hmax
  have hn0 : ({ g with discovered := [], visited := [] } : Graph).node start = some n := hn
  have hn1 : ({ g with discovered := setAdd [] start, visited := [] } : Graph).node start
      = some n := hn
  have he : (Queue.mk g.Size ([] : List (Option Node))).Enqueue (some n)
      = (Queue.mk g.Size [some n], none) :=
    enqueue_of_lt g.Size [] (some n) (by simpa using hs)
  unfold BFS
  simp only [hq, hn0, hn1, he]
  rfl

theorem BInv.init (g : Graph) (start : String) (hs : g.IsKey start) :
    BInv g start (BState.init start) where
  eq := rfl
  nodup := List.nodup_singleton start
  head := ⟨[], rfl⟩
  keys := by
    intro x hx
    rw [List.mem_singleton.1 hx]
    exact hs
  reach := by
    intro x hx
    rw [List.mem_singleton.1 hx]
    exact Relation.ReflTransGen.refl
  closed := by
    intro x hx
    cases hx

theorem BInv.steps {g : Graph} {start : String} {s s' : BState} (hcl : g.Closed)
    (hi : BInv g start s) (hsteps : Relation.ReflTransGen (BfsStep g) s s') :
    BInv g start s' := by
  induction hsteps with
  | refl => exact hi
  | tail _ hstep ih => exact ih.step hcl hstep

/-- The run of `BFS` from a key of a closed graph whose `Size` is enough: it
returns, and its rounds are rounds of `BfsStep` that end with an empty queue. -/
theorem BFS_run (maxCap : Int) (g : Graph) (hcl : g.Closed) (hcap : g.CapOK)
    (hmax : g.Size ≤ maxCap) (start : String)
    (hs : g.IsKey start) (fuel : Nat) (hf : g.Vertices.length < fuel) :
    ∃ s' v' t, BFS maxCap fuel g start = .ok (g.bfsState s'.d v', t) ∧
      Relation.ReflTransGen (BfsStep g) (BState.init start) s' ∧ s'.Q = [] ∧
      g.VisitedAt s'.T t := by
  obtain ⟨n, hn⟩ := (g.isKey_iff start).1 hs
  have hsize : 0 < g.Size := by
    have := hcap [start] (List.nodup_singleton start)
      (fun x hx => by rw [List.mem_singleton.1 hx]; exact hs)
    simp only [List.length_singleton, Nat.cast_one] at this
    omega
  obtain ⟨s', v', Tn, t, hrun, hsteps, hQ, hT, hvis⟩ :=
    bfsLoop_run g start hcl hcap fuel (BState.init start) [] [] (BInv.init g start hs)
      (by simp only [BState.init, List.length_nil]; omega)
  refine ⟨s', v', t, ?_, hsteps, hQ, ?_⟩
  · rw [BFS_eq maxCap g start fuel n hsize hmax hn]
    simp only [BState.init, List.map_cons, List.map_nil, hn, List.nil_append] at hrun
    exact hrun
  · rw [hT]
    simpa [BState.init] using hvis

theorem BInv.final {g : Graph} {start : String} {s : BState} (hi : BInv g start s)
    (hQ : s.Q = []) :
    s.T.Nodup ∧ (∀ k, k ∈ s.T ↔ g.Reachable start k) ∧ s.T.head? = some start := by
  have hd : s.d = s.T := by
    rw [hi.eq, hQ, List.append_nil]
  refine ⟨hd ▸ hi.nodup, ?_, ?_⟩
  · intro k
    constructor
    · intro hk
      exact hi.reach k (hd ▸ hk)
    · intro hr
      induction hr with
      | refl =>
        obtain ⟨rest, hrest⟩ := hi.head
        rw [← hd, hrest]
        exact List.mem_cons_self _ _
      | tail _ hyz ih =>
        have := hi.closed _ ih _ hyz
        rwa [hd] at this
  · obtain ⟨rest, hrest⟩ := hi.head
    rw [← hd, hrest]
    rfl

theorem Graph.SameMaps.capOK {g : Graph} {adjList : AdjacencyList}
    (hs : g.SameMaps (FromAdjacencyList adjList)) : g.CapOK := by
  intro l hnd hk
  have hb := Built.fromAdjacencyList adjList
  have h := (List.subperm_of_subset hnd
    (fun x hx => (hs.2.2.2.1 x).1 (hk x hx))).length_le
  rw [hs.2.1, hb.size]
  have : (FromAdjacencyList adjList).keys.length
      = (FromAdjacencyList adjList).Vertices.length := by
    simp [Graph.keys]
  omega

theorem Graph.SameMaps.sameVertices {g h : Graph} (hs : g.SameMaps h) :
    g.SameVertices h :=
  ⟨hs.1, hs.2.1, hs.2.2.2.1, hs.2.2.2.2⟩

theorem Graph.SameVertices.sameMaps {g h : Graph} (hs : g.SameVertices h) :
    (g.setFlag h.hasCycles).SameMaps h :=
  ⟨hs.1, hs.2.1, rfl, hs.2.2.1, hs.2.2.2⟩

theorem Graph.SameVertices.same_built_closed {g : Graph} {adjList : AdjacencyList}
    (hs : g.SameVertices (FromAdjacencyList adjList)) : g.Closed :=
  hs.sameMaps.built_closed

theorem Graph.SameVertices.same_capOK {g : Graph} {adjList : AdjacencyList}
    (hs : g.SameVertices (FromAdjacencyList adjList)) : g.CapOK :=
  hs.sameMaps.capOK

theorem Graph.SameVertices.after_during {g h : Graph} (hs : g.SameVertices h)
    (d : List String) (b : Bool) : (g.during d b).SameVertices h :=
  hs

theorem Graph.SameVertices.after_bfsState {g h : Graph} (hs : g.SameVertices h)
    (d v : List String) : (g.bfsState d v).SameVertices h :=
  hs

theorem cycleAfterDFS_sameVertices :
    cycleAfterDFS.SameVertices (FromAdjacencyList cycleList) :=
  (Graph.SameMaps.refl (FromAdjacencyList cycleList)).sameVertices.after_during _ _

/-- C3: on a graph built by `FromAdjacencyList`, in any enumeration order of its
maps and in whatever state an earlier traversal has left it (cycle flag set or not),
from a start that is a key, with a queue of capacity `Size` within the limit of
`NewQueue` and with fuel for every vertex, `BFS` returns; `visit` was called on the
nodes stored under a list of keys without repetition that holds exactly the keys
reachable from `start` and begins with `start`; when every key is reachable the
number of visits is `Size`. -/
theorem BFS_visits_reachable_once (adjList : AdjacencyList) (g : Graph)
    (start : String) (maxCap : Int) (fuel : Nat)
    (hg : g.SameVertices (FromAdjacencyList adjList))
    (hs : start ∈ g.keys) (hmax : g.Size ≤ maxCap) (hf : g.Vertices.length < fuel) :
    ∃ g' calls ks, BFS maxCap fuel g start = .ok (g', calls) ∧
      List.Forall₂ (fun k n => g.node k = some n) ks calls ∧
      ks.Nodup ∧ (∀ k, k ∈ ks ↔ g.Reachable start k) ∧ ks.head? = some start ∧
      ((∀ k ∈ g.keys, g.Reachable start k) → (calls.length : Int) = g.Size) := by
  obtain ⟨s', v', t, hrun, hsteps, hQ, hvis⟩ :=
    BFS_run maxCap g hg.same_built_closed hg.same_capOK hmax start hs fuel hf
  have hi := (BInv.init g start hs).steps hg.same_built_closed hsteps
  obtain ⟨hnd, hreach, hhead⟩ := hi.final hQ
  refine ⟨_, t, s'.T, hrun, hvis, hnd, hreach, hhead, ?_⟩
  intro hall
  have hb := Built.fromAdjacencyList adjList
  have hperm : s'.T.Perm (FromAdjacencyList adjList).keys := by
    rw [List.perm_ext_iff_of_nodup hnd hb.nodup]
    intro k
    rw [hreach]
    constructor
    · intro hr
      have : k ∈ s'.T := (hreach k).2 hr
      have hd : s'.d = s'.T := by rw [hi.eq, hQ, List.append_nil]
      exact (hg.2.2.1 k).1 (hi.keys k (hd ▸ this))
    · intro hk
      exact hall k ((hg.2.2.1 k).2 hk)
  have hlen := hperm.length_eq
  have hlen2 : t.length = s'.T.length := (List.Forall₂.length_eq hvis).symm
  rw [hg.2.1, hb.size, hlen2, hlen]
  simp [Graph.keys]

/-- C3 at the directed graph built from `{A: [B], B: [A]}` after a `DFS` from `A`
has set its cycle flag, with the limit of a 64-bit platform. -/
theorem BFS_visits_reachable_once_witness :
    DFS 2 (FromAdjacencyList cycleList) "A"
      = .ok (cycleAfterDFS, [{ Name := "B", Children := ["A"] },
                             { Name := "A", Children := ["B"] }]) ∧
    cycleAfterDFS.HasCycles = true ∧
    ∃ g' calls ks, BFS maxCap64 3 cycleAfterDFS "A" = .ok (g', calls) ∧
      List.Forall₂ (fun k n => cycleAfterDFS.node k = some n) ks calls ∧
      ks.Nodup ∧ (∀ k, k ∈ ks ↔ cycleAfterDFS.Reachable "A" k) ∧
      ks.head? = some "A" ∧
      ((∀ k ∈ cycleAfterDFS.keys, cycleAfterDFS.Reachable "A" k) →
        (calls.length : Int) = cycleAfterDFS.Size) :=
  ⟨by decide, by decide,
    BFS_visits_reachable_once cycleList cycleAfterDFS "A" maxCap64 3
      cycleAfterDFS_sameVertices (by decide) (by decide) (by decide)⟩

/-! ### Level order -/

theorem Graph.Walk.reachable {g : Graph} {n : Nat} {u v : String} (h : g.Walk n u v) :
    g.Reachable u v := by
  induction n generalizing v with
  | zero =>
    rw [show v = u from h.symm]
    exact Relation.ReflTransGen.refl
  | succ n ih =>
    obtain ⟨w, hw, hwv⟩ := h
    exact Relation.ReflTransGen.tail (ih hw) hwv

theorem Graph.Reachable.walk {g : Graph} {u v : String} (h : g.Reachable u v) :
    ∃ n, g.Walk n u v := by
  induction h with
  | refl => exact ⟨0, rfl⟩
  | tail _ hyz ih =>
    obtain ⟨n, hn⟩ := ih
    exact ⟨n + 1, _, hn, hyz⟩

theorem Graph.Dist.unique {g : Graph} {u v : String} {a b : Nat} (ha : g.Dist u v a)
    (hb : g.Dist u v b) : a = b :=
  le_antisymm (ha.2 b hb.1) (hb.2 a ha.1)

theorem Graph.exists_isLevel (g : Graph) (start : String) :
    ∃ δ, g.IsLevel start δ := by
  have h : ∀ x, ∃ d, g.Reachable start x → g.Dist start x d := by
    intro x
    by_cases hr : g.Reachable start x
    · have hex := hr.walk
      classical
      exact ⟨Nat.find hex, fun _ => ⟨Nat.find_spec hex, fun m hm => Nat.find_min' hex hm⟩⟩
    · exact ⟨0, fun h => absurd h hr⟩
  choose δ hδ using h
  exact ⟨δ, hδ⟩

theorem Graph.IsLevel.zero {g : Graph} {start : String} {δ : String → Nat}
    (hl : g.IsLevel start δ) {x : String} (hx : g.Reachable start x) (h0 : δ x = 0) :
    x = start := by
  have := (hl x hx).1
  rw [h0] at this
  exact this.symm

theorem Graph.IsLevel.edge {g : Graph} {start : String} {δ : String → Nat}
    (hl : g.IsLevel start δ) {x y : String} (hx : g.Reachable start x)
    (hxy : g.Edge x y) : δ y ≤ δ x + 1 :=
  (hl y (Relation.ReflTransGen.tail hx hxy)).2 (δ x + 1) ⟨x, (hl x hx).1, hxy⟩

theorem Graph.IsLevel.pred {g : Graph} {start : String} {δ : String → Nat}
    (hl : g.IsLevel start δ) {y : String} (hy : g.Reachable start y) (h0 : δ y ≠ 0) :
    ∃ p, g.Reachable start p ∧ g.Edge p y ∧ δ y = δ p + 1 := by
  have hw := (hl y hy).1
  obtain ⟨m, hm⟩ := Nat.exists_eq_succ_of_ne_zero h0
  rw [hm] at hw
  obtain ⟨p, hp, hpy⟩ := hw
  have hpr : g.Reachable start p := hp.reachable
  have h1 : δ p ≤ m := (hl p hpr).2 m hp
  have h2 := hl.edge hpr hpy
  exact ⟨p, hpr, hpy, by omega⟩

/-- A key nearer to `start` than the head of the queue has been visited. -/
theorem LInv.nearer_visited {g : Graph} {start : String} {δ : String → Nat}
    {s : BState} {u : String} {Qr : List String} (hlev : g.IsLevel start δ)
    (hi : BInv g start s) (hl : LInv δ s) (hQ : s.Q = u :: Qr) (m : Nat) :
    ∀ p, δ p ≤ m → g.Reachable start p → δ p < δ u → p ∈ s.T := by
  have hsplit : ∀ p, p ∈ s.d → δ p < δ u → p ∈ s.T := by
    intro p hp hlt
    rw [hi.eq, hQ] at hp
    rcases List.mem_append.1 hp with h | h
    · exact h
    · exfalso
      have hs := hl.sorted
      rw [hi.eq, hQ] at hs
      have hs2 := (List.pairwise_append.1 hs).2.1
      rcases List.mem_cons.1 h with h | h
      · rw [h] at hlt
        exact lt_irrefl _ hlt
      · have := (List.pairwise_cons.1 hs2).1 p h
        omega
  induction m with
  | zero =>
    intro p hm hr hlt
    have hp : p = start := hlev.zero hr (Nat.le_zero.1 hm)
    obtain ⟨rest, hrest⟩ := hi.head
    exact hsplit p (by rw [hp, hrest]; exact List.mem_cons_self _ _) hlt
  | succ m ih =>
    intro p hm hr hlt
    by_cases h0 : δ p = 0
    · have hp : p = start := hlev.zero hr h0
      obtain ⟨rest, hrest⟩ := hi.head
      exact hsplit p (by rw [hp, hrest]; exact List.mem_cons_self _ _) hlt
    · obtain ⟨q, hq, hqp, hδ⟩ := hlev.pred hr h0
      have hqT := ih q (by omega) hq (by omega)
      exact hsplit p (hi.closed q hqT p hqp) hlt

theorem LInv.after_step {g : Graph} {start : String} {δ : String → Nat} {s s' : BState}
    (hlev : g.IsLevel start δ) (hi : BInv g start s) (hl : LInv δ s)
    (hstep : BfsStep g s s') : LInv δ s' := by
  obtain ⟨u, Qr, n, hQ, hn, rfl⟩ := hstep
  obtain ⟨_, hnew2, _⟩ := newKeys_spec n.Children s.d
  have hu : u ∈ s.d := by
    rw [hi.eq, hQ]
    simp
  have hur := hi.reach u hu
  have hnew : ∀ c ∈ newKeys s.d n.Children, δ c = δ u + 1 := by
    intro c hc
    have hedge : g.Edge u c := ⟨n, hn, (hnew2 c hc).2⟩
    have hcr : g.Reachable start c := Relation.ReflTransGen.tail hur hedge
    have hle := hlev.edge hur hedge
    by_contra hne
    have hlt : δ c ≤ δ u := by omega
    apply (hnew2 c hc).1
    by_cases h0 : δ c = 0
    · have hp : c = start := hlev.zero hcr h0
      obtain ⟨rest, hrest⟩ := hi.head
      rw [hp, hrest]
      exact List.mem_cons_self _ _
    · obtain ⟨q, hq, hqc, hδ⟩ := hlev.pred hcr h0
      have hqT := hl.nearer_visited hlev hi hQ (δ q) q le_rfl hq (by omega)
      exact hi.closed q hqT c hqc
  have hs := hl.sorted
  rw [hi.eq, hQ] at hs
  obtain ⟨_, hsQ, hsTQ⟩ := List.pairwise_append.1 hs
  have huQ : ∀ x ∈ Qr, δ u ≤ δ x := (List.pairwise_cons.1 hsQ).1
  have hold : ∀ a ∈ s.d, δ a ≤ δ u + 1 := by
    intro a ha
    rw [hi.eq, hQ] at ha
    rcases List.mem_append.1 ha with h | h
    · have := hsTQ a h u (List.mem_cons_self _ _)
      omega
    · have := hl.near a (hQ ▸ h) u (hQ ▸ List.mem_cons_self _ _)
      exact this
  constructor
  · show (s.d ++ newKeys s.d n.Children).Pairwise fun a b => δ a ≤ δ b
    rw [List.pairwise_append]
    refine ⟨hl.sorted, ?_, ?_⟩
    · apply List.pairwise_of_forall_mem_list
      intro a ha b hb
      rw [hnew a ha, hnew b hb]
    · intro a ha b hb
      rw [hnew b hb]
      exact hold a ha
  · show ∀ x ∈ Qr ++ newKeys s.d n.Children, ∀ y ∈ Qr ++ newKeys s.d n.Children,
      δ x ≤ δ y + 1
    intro x hx y hy
    rcases List.mem_append.1 hx with hx | hx
    · have hxQ : x ∈ s.Q := hQ ▸ List.mem_cons_of_mem _ hx
      rcases List.mem_append.1 hy with hy | hy
      · exact hl.near x hxQ y (hQ ▸ List.mem_cons_of_mem _ hy)
      · have := hl.near x hxQ u (hQ ▸ List.mem_cons_self _ _)
        rw [hnew y hy]
        omega
    · rw [hnew x hx]
      rcases List.mem_append.1 hy with hy | hy
      · have := huQ y hy
        omega
      · rw [hnew y hy]
        omega

theorem LInv.at_init (δ : String → Nat) (start : String) : LInv δ (BState.init start) where
  sorted := List.pairwise_singleton _ _
  near := by
    intro x hx y hy
    rw [List.mem_singleton.1 hx, List.mem_singleton.1 hy]
    omega

theorem LInv.after_steps {g : Graph} {start : String} {δ : String → Nat} {s s' : BState}
    (hcl : g.Closed) (hlev : g.IsLevel start δ) (hi : BInv g start s) (hl : LInv δ s)
    (hsteps : Relation.ReflTransGen (BfsStep g) s s') : BInv g start s' ∧ LInv δ s' := by
  induction hsteps with
  | refl => exact ⟨hi, hl⟩
  | tail _ hstep ih => exact ⟨ih.1.step hcl hstep, ih.2.after_step hlev ih.1 hstep⟩

/-- C4: on a graph built by `FromAdjacencyList`, in any enumeration order of its
maps and in whatever state an earlier traversal has left it (cycle flag set or not),
from a start that is a key, with a queue of capacity `Size` within the limit of
`NewQueue` and with fuel for every vertex, `BFS` returns and visits in level order:
along the sequence of visited keys the distance from `start` never decreases, and a
key at distance `d` is visited before any key at distance `d + 1`. -/
theorem BFS_level_order (adjList : AdjacencyList) (g : Graph) (start : String)
    (maxCap : Int) (fuel : Nat) (hg : g.SameVertices (FromAdjacencyList adjList))
    (hs : start ∈ g.keys) (hmax : g.Size ≤ maxCap) (hf : g.Vertices.length < fuel) :
    ∃ g' calls ks, BFS maxCap fuel g start = .ok (g', calls) ∧
      List.Forall₂ (fun k n => g.node k = some n) ks calls ∧
      (ks.Pairwise fun a b => ∀ da db, g.Dist start a da → g.Dist start b db → da ≤ db) ∧
      ∀ u v d, g.Dist start u d → g.Dist start v (d + 1) →
        ∃ pre post, ks = pre ++ v :: post ∧ u ∈ pre := by
  obtain ⟨s', v', t, hrun, hsteps, hQ, hvis⟩ :=
    BFS_run maxCap g hg.same_built_closed hg.same_capOK hmax start hs fuel hf
  obtain ⟨δ, hlev⟩ := g.exists_isLevel start
  obtain ⟨hi, hl⟩ := LInv.after_steps hg.same_built_closed hlev (BInv.init g start hs)
    (LInv.at_init δ start) hsteps
  obtain ⟨_, hreach, _⟩ := hi.final hQ
  have hd : s'.d = s'.T := by rw [hi.eq, hQ, List.append_nil]
  have hδ : ∀ x dx, g.Dist start x dx → dx = δ x :=
    fun x dx hx => hx.unique (hlev x hx.1.reachable)
  have hsorted : s'.T.Pairwise fun a b => δ a ≤ δ b := hd ▸ hl.sorted
  refine ⟨_, t, s'.T, hrun, hvis, ?_, ?_⟩
  · refine hsorted.imp ?_
    intro a b hab da db ha hb
    rw [hδ a da ha, hδ b db hb]
    exact hab
  · intro u v d hu hv
    have hvm : v ∈ s'.T := (hreach v).2 hv.1.reachable
    have hum : u ∈ s'.T := (hreach u).2 hu.1.reachable
    obtain ⟨pre, post, hp⟩ := List.append_of_mem hvm
    refine ⟨pre, post, hp, ?_⟩
    rw [hp] at hum hsorted
    rcases List.mem_append.1 hum with h | h
    · exact h
    · exfalso
      have h1 := hδ u d hu
      have h2 := hδ v (d + 1) hv
      rcases List.mem_cons.1 h with h | h
      · rw [h] at h1
        omega
      · have := (List.pairwise_cons.1 (List.pairwise_append.1 hsorted).2.1).1 u h
        omega

/-- C4 at the directed graph built from `{A: [B], B: [A]}` after a `DFS` from `A`
has set its cycle flag, with the limit of a 64-bit platform. -/
theorem BFS_level_order_witness :
    cycleAfterDFS.HasCycles = true ∧
    ∃ g' calls ks, BFS maxCap64 3 cycleAfterDFS "A" = .ok (g', calls) ∧
      List.Forall₂ (fun k n => cycleAfterDFS.node k = some n) ks calls ∧
      (ks.Pairwise fun a b => ∀ da db, cycleAfterDFS.Dist "A" a da →
        cycleAfterDFS.Dist "A" b db → da ≤ db) ∧
      ∀ u v d, cycleAfterDFS.Dist "A" u d → cycleAfterDFS.Dist "A" v (d + 1) →
        ∃ pre post, ks = pre ++ v :: post ∧ u ∈ pre :=
  ⟨by decide,
    BFS_level_order cycleList cycleAfterDFS "A" maxCap64 3 cycleAfterDFS_sameVertices
      (by decide) (by decide) (by decide)⟩

/-! ### The built graph: symmetry, children, order of processing -/

/-- C11: the graph built from an adjacency list of kind Undirected has a symmetric
neighbour relation: `B` is in the `Children` of `A` exactly when `A` is in the
`Children` of `B`. -/
theorem FromAdjacencyList_undirected_symmetric (adjList : AdjacencyList)
    (hk : adjList.Kind = Undirected) :
    ∀ A B, (∃ n, (FromAdjacencyList adjList).node A = some n ∧ B ∈ n.Children) ↔
      (∃ m, (FromAdjacencyList adjList).node B = some m ∧ A ∈ m.Children) :=
  fun A B => ⟨edge_symm_fromAdjacencyList adjList hk A B,
    edge_symm_fromAdjacencyList adjList hk B A⟩

/-- C11 at the single edge `A -> B`: `A` has the neighbour `B` and `B` has the
neighbour `A`. -/
theorem FromAdjacencyList_undirected_symmetric_witness :
    (∀ A B, (∃ n, (FromAdjacencyList edgeList).node A = some n ∧ B ∈ n.Children) ↔
      (∃ m, (FromAdjacencyList edgeList).node B = some m ∧ A ∈ m.Children)) ∧
    (FromAdjacencyList edgeList).node "A" = some { Name := "A", Children := ["B"] } ∧
    (FromAdjacencyList edgeList).node "B" = some { Name := "B", Children := ["A"] } :=
  ⟨FromAdjacencyList_undirected_symmetric edgeList rfl, by decide, by decide⟩

/-- C12: in the graph built by `FromAdjacencyList` every vertex record has a node
whose `Children` holds every neighbour listed for it; when the kind is Directed the
`Children` of a node is without repetition and holds exactly the neighbours listed
for its name, and a node whose name is no vertex key has no children. -/
theorem FromAdjacencyList_children (adjList : AdjacencyList) :
    (∀ r ∈ adjList.Vertices, ∃ n, (FromAdjacencyList adjList).node r.1 = some n ∧
      ∀ c ∈ r.2, c ∈ n.Children) ∧
    (adjList.Kind = Directed →
      (∀ k n, (FromAdjacencyList adjList).node k = some n →
        n.Children.Nodup ∧
        ∀ c, c ∈ n.Children ↔ ∃ r ∈ adjList.Vertices, r.1 = k ∧ c ∈ r.2) ∧
      (∀ k n, (FromAdjacencyList adjList).node k = some n →
        (∀ r ∈ adjList.Vertices, r.1 ≠ k) → n.Children = [])) := by
  have hb := Built.fromAdjacencyList adjList
  have hexact : adjList.Kind = Directed →
      ∀ k n, (FromAdjacencyList adjList).node k = some n →
        ∀ c, c ∈ n.Children ↔ ∃ r ∈ adjList.Vertices, r.1 = k ∧ c ∈ r.2 := by
    intro hk k n hn c
    have hne : ¬ adjList.Kind = Undirected := by
      rw [hk]
      exact directed_ne_undirected
    have he := edge_fromAdjacencyList adjList k c
    simp only [hne, false_and, or_false] at he
    constructor
    · intro hc
      obtain ⟨r, hr, h1, h2⟩ := he.1 ⟨n, hn, hc⟩
      exact ⟨r, hr, h1.symm, h2⟩
    · rintro ⟨r, hr, h1, h2⟩
      obtain ⟨m, hm, hc⟩ := he.2 ⟨r, hr, h1.symm, h2⟩
      rw [hn] at hm
      cases hm
      exact hc
  refine ⟨?_, fun hk => ⟨fun k n hn => ⟨hb.childrenNodup k n hn, hexact hk k n hn⟩, ?_⟩⟩
  · intro r hr
    have hkey : (FromAdjacencyList adjList).IsKey r.1 :=
      (isKey_fromAdjacencyList adjList r.1).2 ⟨r, hr, Or.inl rfl⟩
    obtain ⟨n, hn⟩ := ((FromAdjacencyList adjList).isKey_iff r.1).1 hkey
    refine ⟨n, hn, fun c hc => ?_⟩
    obtain ⟨m, hm, hcm⟩ :=
      (edge_fromAdjacencyList adjList r.1 c).2 (Or.inl ⟨r, hr, rfl, hc⟩)
    rw [hn] at hm
    cases hm
    exact hcm
  · intro k n hn hnone
    apply List.eq_nil_iff_forall_not_mem.2
    intro c hc
    obtain ⟨r, hr, h1, _⟩ := (hexact hk k n hn c).1 hc
    exact hnone r hr h1

theorem sameRecords_of_perm {l1 l2 : List (String × List String)} (h : l1.Perm l2) :
    SameRecords l1 l2 := by
  constructor
  · intro k
    exact (h.map Prod.fst).mem_iff
  · intro k c
    constructor
    · rintro ⟨r, hr, h1, h2⟩
      exact ⟨r, h.mem_iff.1 hr, h1, h2⟩
    · rintro ⟨r, hr, h1, h2⟩
      exact ⟨r, h.mem_iff.2 hr, h1, h2⟩

/-- C19: `FromAdjacencyList` does not depend on the order in which the records and
their neighbour entries are processed: two adjacency lists of the same kind that
name the same vertices and list the same neighbours for each of them yield graphs
with the same keys, the same children under every key, the same `Size` and the same
`Type`. -/
theorem FromAdjacencyList_order_independent (a1 a2 : AdjacencyList)
    (hkind : a1.Kind = a2.Kind) (hrec : SameRecords a1.Vertices a2.Vertices) :
    (∀ k, k ∈ (FromAdjacencyList a1).keys ↔ k ∈ (FromAdjacencyList a2).keys) ∧
    (∀ k c, (∃ n, (FromAdjacencyList a1).node k = some n ∧ c ∈ n.Children) ↔
      (∃ n, (FromAdjacencyList a2).node k = some n ∧ c ∈ n.Children)) ∧
    (FromAdjacencyList a1).Size = (FromAdjacencyList a2).Size ∧
    (FromAdjacencyList a1).Type_ = (FromAdjacencyList a2).Type_ := by
  have hb1 := Built.fromAdjacencyList a1
  have hb2 := Built.fromAdjacencyList a2
  have hkeys : ∀ k, k ∈ (FromAdjacencyList a1).keys ↔ k ∈ (FromAdjacencyList a2).keys := by
    intro k
    have h1 := isKey_fromAdjacencyList a1 k
    have h2 := isKey_fromAdjacencyList a2 k
    unfold Graph.IsKey at h1 h2
    rw [h1, h2]
    constructor
    · rintro ⟨r, hr, h | h⟩
      · have hk : k ∈ a1.Vertices.map Prod.fst := h ▸ List.mem_map_of_mem _ hr
        obtain ⟨r', hr', he⟩ := List.mem_map.1 ((hrec.1 k).1 hk)
        exact ⟨r', hr', Or.inl he.symm⟩
      · obtain ⟨r', hr', _, hc⟩ := (hrec.2 r.1 k).1 ⟨r, hr, rfl, h⟩
        exact ⟨r', hr', Or.inr hc⟩
    · rintro ⟨r, hr, h | h⟩
      · have hk : k ∈ a2.Vertices.map Prod.fst := h ▸ List.mem_map_of_mem _ hr
        obtain ⟨r', hr', he⟩ := List.mem_map.1 ((hrec.1 k).2 hk)
        exact ⟨r', hr', Or.inl he.symm⟩
      · obtain ⟨r', hr', _, hc⟩ := (hrec.2 r.1 k).2 ⟨r, hr, rfl, h⟩
        exact ⟨r', hr', Or.inr hc⟩
  have hflip : ∀ u v, (∃ r ∈ a1.Vertices, u ∈ r.2 ∧ v = r.1) ↔
      (∃ r ∈ a2.Vertices, u ∈ r.2 ∧ v = r.1) := by
    intro u v
    constructor
    · rintro ⟨r, hr, h1, h2⟩
      obtain ⟨r', hr', h3, h4⟩ := (hrec.2 v u).1 ⟨r, hr, h2.symm, h1⟩
      exact ⟨r', hr', h4, h3.symm⟩
    · rintro ⟨r, hr, h1, h2⟩
      obtain ⟨r', hr', h3, h4⟩ := (hrec.2 v u).2 ⟨r, hr, h2.symm, h1⟩
      exact ⟨r', hr', h4, h3.symm⟩
  have hfwd : ∀ u v, (∃ r ∈ a1.Vertices, u = r.1 ∧ v ∈ r.2) ↔
      (∃ r ∈ a2.Vertices, u = r.1 ∧ v ∈ r.2) := by
    intro u v
    constructor
    · rintro ⟨r, hr, h1, h2⟩
      obtain ⟨r', hr', h3, h4⟩ := (hrec.2 u v).1 ⟨r, hr, h1.symm, h2⟩
      exact ⟨r', hr', h3.symm, h4⟩
    · rintro ⟨r, hr, h1, h2⟩
      obtain ⟨r', hr', h3, h4⟩ := (hrec.2 u v).2 ⟨r, hr, h1.symm, h2⟩
      exact ⟨r', hr', h3.symm, h4⟩
  refine ⟨hkeys, ?_, ?_, ?_⟩
  · intro k c
    have h1 := edge_fromAdjacencyList a1 k c
    have h2 := edge_fromAdjacencyList a2 k c
    unfold Graph.Edge at h1 h2
    rw [h1, h2, hkind, hfwd k c, hflip k c]
  · rw [hb1.size, hb2.size]
    have hperm : (FromAdjacencyList a1).keys.Perm (FromAdjacencyList a2).keys :=
      (List.perm_ext_iff_of_nodup hb1.nodup hb2.nodup).2 hkeys
    have := hperm.length_eq
    simp only [Graph.keys, List.length_map] at this
    rw [this]
  · rw [type_fromAdjacencyList, type_fromAdjacencyList, hkind]

/-- C19 at `{A: [B, C], B: [C]}` and the same records in the other order, with the
neighbours of `A` reordered and repeated. -/
theorem FromAdjacencyList_order_independent_witness :
    (∀ k, k ∈ (FromAdjacencyList diamondList).keys ↔
      k ∈ (FromAdjacencyList diamondListShuffled).keys) ∧
    (∀ k c, (∃ n, (FromAdjacencyList diamondList).node k = some n ∧ c ∈ n.Children) ↔
      (∃ n, (FromAdjacencyList diamondListShuffled).node k = some n ∧ c ∈ n.Children)) ∧
    (FromAdjacencyList diamondList).Size = (FromAdjacencyList diamondListShuffled).Size ∧
    (FromAdjacencyList diamondList).Type_ = (FromAdjacencyList diamondListShuffled).Type_ :=
  FromAdjacencyList_order_independent diamondList diamondListShuffled rfl
    ⟨by
      intro k
      simp [diamondList, diamondListShuffled, or_comm],
     by
      intro k c
      simp only [diamondList, diamondListShuffled, List.mem_cons, List.mem_singleton,
        List.not_mem_nil, or_false, exists_eq_or_imp, exists_eq_left]
      constructor
      · rintro (⟨rfl, rfl | rfl⟩ | ⟨rfl, rfl⟩) <;> simp
      · rintro (⟨rfl, rfl⟩ | ⟨rfl, rfl | rfl | rfl⟩) <;> simp⟩

/-! ### The start node is missing -/

theorem BFS_unfold (maxCap : Int) (g : Graph) (start : String) (fuel : Nat)
    (hs : 0 ≤ g.Size) (hmax : g.Size ≤ maxCap) :
    BFS maxCap fuel g start =
      match g.node start with
      | none => .panic "Start node not found"
      | some _ =>
        match (Queue.mk g.Size ([] : List (Option Node))).Enqueue (g.node start) with
        | (_, some err) => .panic err
        | (queue1, none) =>
          bfsLoop fuel ({ g with discovered := setAdd [] start, visited := [] }, queue1, []) := by
  have hq : (NewQueue maxCap g.Size : Res (Queue (Option Node)))
      = .ok (Queue.mk g.Size []) := NewQueue_ok maxCap g.Size hs hmax
  unfold BFS
  simp only [hq]
  rfl

theorem BFS_cap_out_of_range (maxCap : Int) (g : Graph) (start : String) (fuel : Nat)
    (hs : g.Size < 0 ∨ maxCap < g.Size) :
    BFS maxCap fuel g start = .panic "runtime error: makeslice: cap out of range" := by
  have hq : (NewQueue maxCap g.Size : Res (Queue (Option Node)))
      = .panic "runtime error: makeslice: cap out of range" :=
    NewQueue_out_of_range maxCap g.Size hs
  unfold BFS
  simp only [hq]

/-! ### Any visitor -/

theorem dfs_eq_dfsWith (fuel : Nat) :
    ∀ (n : Option Node) (w : Graph × List Node),
      dfs fuel n w = dfsWith logVisit fuel n w := by
  induction fuel with
  | zero =>
    intro n w
    rfl
  | succ f ih =>
    intro n w
    cases n with
    | none => rfl
    | some node =>
      have hfun : dfs f = dfsWith logVisit f := funext fun n => funext fun w => ih n w
      rw [dfs, dfsWith, hfun]
      rfl

/-- `DFS` is `DFSWith` for the visitor that appends to a list. -/
theorem DFS_eq_DFSWith (fuel : Nat) (g : Graph) (start : String) :
    DFS fuel g start = DFSWith logVisit fuel g start [] := by
  have hfun : dfs fuel = dfsWith logVisit fuel :=
    funext fun n => funext fun w => dfs_eq_dfsWith fuel n w
  unfold DFS DFSWith
  rw [hfun]

theorem bfsLoop_eq_bfsLoopWith (fuel : Nat) :
    ∀ (G : Graph) (q : Queue (Option Node)) (calls : List Node),
      bfsLoop fuel (G, q, calls) = bfsLoopWith logVisit fuel (G, q, calls) := by
  induction fuel with
  | zero =>
    intro G q calls
    rfl
  | succ f ih =>
    intro G q calls
    obtain ⟨cap, items⟩ := q
    cases items with
    | nil => rfl
    | cons item rest =>
      cases item with
      | none => rfl
      | some n =>
        rw [bfsLoop_cons]
        show _ = (bfsChildren n.Children (G, Queue.mk cap rest)).bind fun w =>
          (logVisit n calls).bind fun s1 =>
            bfsLoopWith logVisit f
              ({ w.1 with visited := setAdd w.1.visited n.Name }, w.2, s1)
        cases bfsChildren n.Children (G, Queue.mk cap rest) with
        | ok w => exact ih _ _ _
        | panic msg => rfl
        | outOfFuel => rfl

/-- `BFS` is `BFSWith` for the visitor that appends to a list. -/
theorem BFS_eq_BFSWith (maxCap : Int) (fuel : Nat) (g : Graph) (start : String) :
    BFS maxCap fuel g start = BFSWith maxCap logVisit fuel g start [] := by
  unfold BFS BFSWith
  cases (NewQueue maxCap g.Size : Res (Queue (Option Node))) with
  | panic msg => rfl
  | outOfFuel => rfl
  | ok queue =>
    simp only
    cases ({ g with discovered := [], visited := [] } : Graph).node start with
    | none => rfl
    | some n =>
      simp only
      cases hq : queue.Enqueue
          (({ g with discovered := setAdd [] start, visited := [] } : Graph).node start) with
      | mk q1 err =>
        cases err with
        | some e => rfl
        | none => exact bfsLoop_eq_bfsLoopWith fuel _ q1 []

/-! ### The start node is missing -/

/-- C13: from a start that is not a key, `DFS` aborts with "Start node not found",
and so does `BFS` on a graph for whose `Size` the queue can be made (`Size` is not
negative, as the count of nodes that it is, and within the limit of `NewQueue`).
Neither invokes `visit`: the outcome is this abort for every `visit`, also for one
that panics or does not return when it is called, and with any fuel, none included.
The same holds of `DFS` and `BFS`, the traversals with the visitor that appends to a
list. -/
theorem traversal_start_not_found (g : Graph) (start : String) (hs : start ∉ g.keys) :
    (∀ (σ : Type) (visit : Node → σ → Res σ) (s : σ) (fuel : Nat),
      DFSWith visit fuel g start s = .panic "Start node not found") ∧
    (∀ (σ : Type) (visit : Node → σ → Res σ) (s : σ) (fuel : Nat) (maxCap : Int),
      0 ≤ g.Size → g.Size ≤ maxCap →
      BFSWith maxCap visit fuel g start s = .panic "Start node not found") ∧
    (∀ fuel, DFS fuel g start = .panic "Start node not found") ∧
    (∀ fuel maxCap, 0 ≤ g.Size → g.Size ≤ maxCap →
      BFS maxCap fuel g start = .panic "Start node not found") := by
  have hn : g.node start = none := (mapGet_eq_none_iff g.Vertices start).2 hs
  have hn0 : ({ g with discovered := [], visited := [] } : Graph).node start = none := hn
  have hdfs : ∀ (σ : Type) (visit : Node → σ → Res σ) (s : σ) (fuel : Nat),
      DFSWith visit fuel g start s = .panic "Start node not found" := by
    intro σ visit s fuel
    unfold DFSWith
    simp only [hn0]
  have hbfs : ∀ (σ : Type) (visit : Node → σ → Res σ) (s : σ) (fuel : Nat) (maxCap : Int),
      0 ≤ g.Size → g.Size ≤ maxCap →
      BFSWith maxCap visit fuel g start s = .panic "Start node not found" := by
    intro σ visit s fuel maxCap h0 h1
    have hq : (NewQueue maxCap g.Size : Res (Queue (Option Node)))
        = .ok (Queue.mk g.Size []) := NewQueue_ok maxCap g.Size h0 h1
    unfold BFSWith
    simp only [hq, hn0]
  refine ⟨hdfs, hbfs, ?_, ?_⟩
  · intro fuel
    rw [DFS_eq_DFSWith]
    exact hdfs _ _ _ _
  · intro fuel maxCap h0 h1
    rw [BFS_eq_BFSWith]
    exact hbfs _ _ _ _ _ h0 h1

/-- C13 at the graph of the DFS test, from the absent name `node3`: the abort is
"Start node not found" also for a `visit` that panics when it is called, and without
fuel. -/
theorem traversal_start_not_found_witness :
    DFSWith panicVisit 0 testGraph "node3" () = .panic "Start node not found" ∧
    BFSWith maxCap64 panicVisit 0 testGraph "node3" () = .panic "Start node not found" ∧
    DFS 0 testGraph "node3" = .panic "Start node not found" ∧
    BFS maxCap64 0 testGraph "node3" = .panic "Start node not found" :=
  ⟨(traversal_start_not_found testGraph "node3" (by decide)).1 Unit panicVisit () 0,
    (traversal_start_not_found testGraph "node3" (by decide)).2.1 Unit panicVisit () 0
      maxCap64 (by decide) (by decide),
    (traversal_start_not_found testGraph "node3" (by decide)).2.2.1 0,
    (traversal_start_not_found testGraph "node3" (by decide)).2.2.2 0 maxCap64
      (by decide) (by decide)⟩

/-! ### What BFS leaves alone, and what it never runs into -/

theorem bfsChildren_flag (cs : List String) :
    ∀ (G : Graph) (q : Queue (Option Node)) (w : Graph × Queue (Option Node)),
      bfsChildren cs (G, q) = .ok w → w.1.hasCycles = G.hasCycles := by
  induction cs with
  | nil =>
    intro G q w h
    rw [bfsChildren] at h
    cases h
    rfl
  | cons c cs ih =>
    intro G q w h
    rw [bfsChildren] at h
    by_cases hc : c ∈ G.discovered
    · rw [if_pos hc] at h
      exact ih G q w h
    · rw [if_neg hc] at h
      simp only at h
      cases he : q.Enqueue
          (({ G with discovered := setAdd G.discovered c } : Graph).node c) with
      | mk q1 err =>
        rw [he] at h
        cases err with
        | none => exact ih { G with discovered := setAdd G.discovered c } q1 w h
        | some e => cases h

theorem bfsLoop_none (f : Nat) (G : Graph) (cap : Int) (items : List (Option Node))
    (calls : List Node) :
    bfsLoop (f + 1) (G, Queue.mk cap (none :: items), calls)
      = .panic "Unexpected nil Node from a non-empty queue" := rfl

theorem bfsLoop_flag (fuel : Nat) :
    ∀ (G : Graph) (q : Queue (Option Node)) (calls : List Node) (w : Graph × List Node),
      bfsLoop fuel (G, q, calls) = .ok w → w.1.hasCycles = G.hasCycles := by
  induction fuel with
  | zero =>
    intro G q calls w h
    cases h
  | succ f ih =>
    intro G q calls w h
    obtain ⟨cap, items⟩ := q
    cases items with
    | nil =>
      rw [bfsLoop_nil] at h
      cases h
      rfl
    | cons item rest =>
      cases item with
      | none =>
        rw [bfsLoop_none] at h
        cases h
      | some n =>
        rw [bfsLoop_cons] at h
        obtain ⟨w1, hw1, hrest⟩ := Res.bind_eq_ok _ _ _ h
        have h1 := bfsChildren_flag n.Children G _ w1 hw1
        have h2 := ih _ _ _ w hrest
        rw [h2, ← h1]

theorem BFS_flag (maxCap : Int) (g : Graph) (start : String) (fuel : Nat)
    (w : Graph × List Node) (h : BFS maxCap fuel g start = .ok w) :
    w.1.hasCycles = g.hasCycles := by
  by_cases hs : 0 ≤ g.Size ∧ g.Size ≤ maxCap
  · rw [BFS_unfold maxCap g start fuel hs.1 hs.2] at h
    cases hn : g.node start with
    | none =>
      rw [hn] at h
      cases h
    | some n =>
      rw [hn] at h
      simp only at h
      cases he : (Queue.mk g.Size ([] : List (Option Node))).Enqueue (some n) with
      | mk q1 err =>
        rw [he] at h
        cases err with
        | none =>
          exact bfsLoop_flag fuel { g with discovered := setAdd [] start, visited := [] }
            q1 [] w h
        | some e => cases h
  · rw [BFS_cap_out_of_range maxCap g start fuel (by omega)] at h
    cases h

theorem Graph.SameMaps.bfsState {g h : Graph} (hs : g.SameMaps h) (d v : List String) :
    (g.bfsState d v).SameMaps h :=
  hs

theorem bfsMany_built (adjList : AdjacencyList) (maxCap : Int) (fuel : Nat)
    (starts : List String) :
    ∀ g : Graph, g.SameMaps (FromAdjacencyList adjList) → (∀ s ∈ starts, s ∈ g.keys) →
      g.Size ≤ maxCap → g.Vertices.length < fuel →
      ∃ g', bfsMany maxCap fuel g starts = .ok g' ∧
        g'.SameMaps (FromAdjacencyList adjList) := by
  induction starts with
  | nil =>
    intro g hg _ _ _
    exact ⟨g, rfl, hg⟩
  | cons s rest ih =>
    intro g hg hkeys hmax hf
    obtain ⟨s', v', t, hrun, _, _, _⟩ :=
      BFS_run maxCap g hg.built_closed hg.capOK hmax s (hkeys s (List.mem_cons_self _ _))
        fuel hf
    obtain ⟨g', hg', hsame⟩ := ih (g.bfsState s'.d v') (hg.bfsState s'.d v')
      (fun x hx => hkeys x (List.mem_cons_of_mem _ hx)) hmax hf
    refine ⟨g', ?_, hsame⟩
    rw [bfsMany, hrun]
    exact hg'

/-- C15: `BFS` never flags cycles. Whenever `BFS` returns, under any limit of
`NewQueue`, `HasCycles()` is what it was before the call; on a graph freshly built by
`FromAdjacencyList`, in any enumeration order of its maps, `HasCycles()` is false,
any number of `BFS` calls from keys of the graph return once the queue of `Size`
slots can be made, and `HasCycles()` is still false after them; so it is after `BFS`
on the cyclic graph `{A: [B], B: [A]}`. -/
theorem BFS_keeps_flag (g : Graph) :
    (∀ maxCap start fuel g' calls, BFS maxCap fuel g start = .ok (g', calls) →
      g'.HasCycles = g.HasCycles) ∧
    (∀ adjList, g.SameMaps (FromAdjacencyList adjList) →
      g.HasCycles = false ∧
      ∀ maxCap starts fuel, (∀ s ∈ starts, s ∈ g.keys) → g.Size ≤ maxCap →
        g.Vertices.length < fuel →
        ∃ g', bfsMany maxCap fuel g starts = .ok g' ∧ g'.HasCycles = false) ∧
    flagAfter (BFS maxCap64 3 (FromAdjacencyList cycleList) "A") = .ok false := by
  refine ⟨?_, ?_, by decide⟩
  · intro maxCap start fuel g' calls h
    exact BFS_flag maxCap g start fuel (g', calls) h
  · intro adjList hg
    refine ⟨hg.flag, ?_⟩
    intro maxCap starts fuel hkeys hmax hf
    obtain ⟨g', hrun, hsame⟩ := bfsMany_built adjList maxCap fuel starts g hg hkeys hmax hf
    exact ⟨g', hrun, hsame.flag⟩

theorem bfsLoop_panic_succ (fuel : Nat) :
    ∀ (G : Graph) (q : Queue (Option Node)) (calls : List Node) (msg : String),
      bfsLoop fuel (G, q, calls) = .panic msg →
      bfsLoop (fuel + 1) (G, q, calls) = .panic msg := by
  induction fuel with
  | zero =>
    intro G q calls msg h
    cases h
  | succ f ih =>
    intro G q calls msg h
    obtain ⟨cap, items⟩ := q
    cases items with
    | nil =>
      rw [bfsLoop_nil] at h
      cases h
    | cons item rest =>
      cases item with
      | none =>
        rw [bfsLoop_none] at h
        rw [bfsLoop_none]
        exact h
      | some n =>
        rw [bfsLoop_cons] at h ⊢
        cases hw : bfsChildren n.Children (G, Queue.mk cap rest) with
        | ok w =>
          rw [hw] at h
          exact ih _ _ _ msg h
        | panic m =>
          rw [hw] at h
          exact h
        | outOfFuel =>
          rw [hw] at h
          cases h

theorem bfsLoop_panic_add (fuel k : Nat) (G : Graph) (q : Queue (Option Node))
    (calls : List Node) (msg : String) (h : bfsLoop fuel (G, q, calls) = .panic msg) :
    bfsLoop (fuel + k) (G, q, calls) = .panic msg := by
  induction k with
  | zero => exact h
  | succ k ih => exact bfsLoop_panic_succ (fuel + k) G q calls msg ih

/-- C14: on a graph built by `FromAdjacencyList`, in any enumeration order of its
maps and whatever its cycle flag is by now, `BFS` from a key reaches no fatal branch
once the queue of `Size` slots can be made. With fuel for every vertex it returns;
every dequeued item was a node stored under a key, no key was enqueued twice, and the
keys enqueued are no more than `Size`, the capacity of the queue; with any fuel the
outcome is not a panic. -/
theorem BFS_never_fatal (adjList : AdjacencyList) (g : Graph) (start : String)
    (maxCap : Int) (hg : g.SameVertices (FromAdjacencyList adjList))
    (hs : start ∈ g.keys) (hmax : g.Size ≤ maxCap) :
    (∀ fuel, g.Vertices.length < fuel →
      ∃ g' calls ks, BFS maxCap fuel g start = .ok (g', calls) ∧
        List.Forall₂ (fun k n => g.node k = some n) ks calls ∧ ks.Nodup ∧
        (ks.length : Int) ≤ g.Size) ∧
    (∀ fuel msg, BFS maxCap fuel g start ≠ .panic msg) := by
  have hcap := hg.same_capOK
  have hcl := hg.same_built_closed
  have hrun : ∀ fuel, g.Vertices.length < fuel →
      ∃ g' calls ks, BFS maxCap fuel g start = .ok (g', calls) ∧
        List.Forall₂ (fun k n => g.node k = some n) ks calls ∧ ks.Nodup ∧
        (ks.length : Int) ≤ g.Size := by
    intro fuel hf
    obtain ⟨s', v', t, hrun, hsteps, hQ, hvis⟩ :=
      BFS_run maxCap g hcl hcap hmax start hs fuel hf
    have hi := (BInv.init g start hs).steps hcl hsteps
    have hd : s'.d = s'.T := by rw [hi.eq, hQ, List.append_nil]
    exact ⟨_, t, s'.T, hrun, hvis, hd ▸ hi.nodup,
      hcap s'.T (hd ▸ hi.nodup) (fun x hx => hi.keys x (hd ▸ hx))⟩
  refine ⟨hrun, ?_⟩
  intro fuel msg hp
  obtain ⟨n, hn⟩ := (g.isKey_iff start).1 hs
  have hsize : 0 < g.Size := by
    have := hcap [start] (List.nodup_singleton start)
      (fun x hx => by rw [List.mem_singleton.1 hx]; exact hs)
    simp only [List.length_singleton, Nat.cast_one] at this
    omega
  rw [BFS_eq maxCap g start fuel n hsize hmax hn] at hp
  have hp' := bfsLoop_panic_add fuel (g.Vertices.length + 1) _ _ _ msg hp
  rw [← BFS_eq maxCap g start (fuel + (g.Vertices.length + 1)) n hsize hmax hn] at hp'
  obtain ⟨g', calls, ks, hok, _⟩ := hrun (fuel + (g.Vertices.length + 1)) (by omega)
  rw [hok] at hp'
  cases hp'

/-- C14 at the directed graph built from `{A: [B], B: [A]}` after a `DFS` from `A`
has set its cycle flag, from `B`, with the limit of a 64-bit platform. -/
theorem BFS_never_fatal_witness :
    flagAfter (DFS 2 (FromAdjacencyList cycleList) "A") = .ok true ∧
    (DFS 2 (FromAdjacencyList cycleList) "A").map (fun w => w.1) = .ok cycleAfterDFS ∧
    (∀ fuel, cycleAfterDFS.Vertices.length < fuel →
      ∃ g' calls ks, BFS maxCap64 fuel cycleAfterDFS "B" = .ok (g', calls) ∧
        List.Forall₂ (fun k n => cycleAfterDFS.node k = some n) ks calls ∧
        ks.Nodup ∧ (ks.length : Int) ≤ cycleAfterDFS.Size) ∧
    (∀ fuel msg, BFS maxCap64 fuel cycleAfterDFS "B" ≠ .panic msg) :=
  ⟨by decide, by decide,
    BFS_never_fatal cycleList cycleAfterDFS "B" maxCap64 cycleAfterDFS_sameVertices
      (by decide) (by decide)⟩

/-! ### Reverse topological order -/

theorem snoc_eq_append_cons {l pre post : List String} {a x : String}
    (h : l ++ [a] = pre ++ x :: post) :
    (post = [] ∧ x = a ∧ pre = l) ∨ ∃ post', post = post' ++ [a] ∧ l = pre ++ x :: post' := by
  rcases List.append_eq_append_iff.1 h with ⟨a', h1, h2⟩ | ⟨c', h1, h2⟩
  · cases a' with
    | nil =>
      simp only [List.nil_append, List.cons.injEq] at h2
      exact Or.inl ⟨h2.2.symm, h2.1.symm, by simpa using h1⟩
    | cons z a'' =>
      simp only [List.cons_append, List.cons.injEq] at h2
      have := h2.2
      cases a'' <;> cases this
  · cases c' with
    | nil =>
      simp only [List.nil_append, List.cons.injEq] at h2
      exact Or.inl ⟨h2.2, h2.1, by simpa using h1.symm⟩
    | cons z c'' =>
      simp only [List.cons_append, List.cons.injEq] at h2
      exact Or.inr ⟨c'', h2.2, by rw [h1, h2.1]⟩

/-- In a part of the graph without cycles, an edge that leaves a node visited by the
loop of `dfs` leads to a node that was finished before the loop or is visited
earlier in it: `F` holds the finished keys, and every other discovered key is on the
path of calls that leads to `u`, the node whose children `cs` are. -/
theorem Explore.edges_back {g : Graph} {start : String}
    (hac : ∀ v, g.Reachable start v → ¬ Relation.TransGen g.Edge v v)
    {cs d : List String} {h : Bool} {d' : List String} {h' : Bool} {ks : List String}
    (hx : Explore g cs d h d' h' ks) :
    ∀ (F : List String) (u : String), g.Reachable start u → (∀ c ∈ cs, g.Edge u c) →
      (∀ s ∈ d, s ∉ F → g.Reachable s u) →
      ∀ pre x post, ks = pre ++ x :: post → ∀ y, g.Edge x y → y ∈ F ∨ y ∈ pre := by
  induction hx with
  | done d h =>
    intro F u _ _ _ pre x post hks
    cases pre <;> cases hks
  | seen c cs d h d' h' ks _ _ ih =>
    intro F u hur hcs hstack
    exact ih F u hur (fun c' hc' => hcs c' (List.mem_cons_of_mem _ hc')) hstack
  | fresh c cs n d h d1 h1 ks1 d' h' ks2 _ hn hx1 _ ih1 ih2 =>
    intro F u hur hcs hstack pre x post hks y hxy
    have huc : g.Edge u c := hcs c (List.mem_cons_self _ _)
    have hcr : g.Reachable start c := Relation.ReflTransGen.tail hur huc
    have ih1' := ih1 F c hcr (fun c' hc' => ⟨n, hn, hc'⟩) (by
      intro s hs hsF
      rcases List.mem_append.1 hs with hs | hs
      · exact Relation.ReflTransGen.tail (hstack s hs hsF) huc
      · rw [List.mem_singleton.1 hs]
        exact Relation.ReflTransGen.refl)
    have ih2' := ih2 (F ++ ks1 ++ [c]) u hur
      (fun c' hc' => hcs c' (List.mem_cons_of_mem _ hc')) (by
      intro s hs hsF
      simp only [List.mem_append, List.mem_singleton, not_or] at hsF
      rcases (hx1.mem_iff s).1 hs with hs | hs
      · rcases List.mem_append.1 hs with hs | hs
        · exact hstack s hs hsF.1.1
        · exact absurd (List.mem_singleton.1 hs) hsF.2
      · exact absurd hs hsF.1.2)
    have hhead : ∀ y, g.Edge c y → y ∈ F ∨ y ∈ ks1 := by
      rintro y ⟨m, hm, hy⟩
      rw [hn] at hm
      cases hm
      have hcy : g.Edge c y := ⟨n, hn, hy⟩
      rcases (hx1.mem_iff y).1 (hx1.children_mem y hy) with hyd | hyk
      · rcases List.mem_append.1 hyd with hyd | hyc
        · by_cases hyF : y ∈ F
          · exact Or.inl hyF
          · exfalso
            have hyr : g.Reachable start y := Relation.ReflTransGen.tail hcr hcy
            exact hac y hyr
              (Relation.TransGen.tail (Relation.TransGen.tail' (hstack y hyd hyF) huc) hcy)
        · exfalso
          rw [List.mem_singleton.1 hyc] at hcy
          exact hac c hcr (Relation.TransGen.single hcy)
      · exact Or.inr hyk
    rcases List.append_eq_append_iff.1 hks with ⟨a', h1e, h2e⟩ | ⟨c', h1e, h2e⟩
    · cases a' with
      | nil =>
        simp only [List.nil_append, List.cons.injEq] at h2e
        rw [← h2e.1] at hxy
        rw [h1e, List.append_nil]
        exact hhead y hxy
      | cons z a'' =>
        simp only [List.cons_append, List.cons.injEq] at h2e
        rcases ih2' a'' x post h2e.2 y hxy with hy | hy
        · simp only [List.mem_append, List.mem_singleton] at hy
          rcases hy with (hy | hy) | hy
          · exact Or.inl hy
          · exact Or.inr (by rw [h1e]; exact List.mem_append_left _ hy)
          · refine Or.inr ?_
            rw [h1e, ← h2e.1, hy]
            simp
        · refine Or.inr ?_
          rw [h1e]
          exact List.mem_append_right _ (List.mem_cons_of_mem _ hy)
    · cases c' with
      | nil =>
        simp only [List.nil_append, List.cons.injEq] at h2e
        rw [h2e.1] at hxy
        rw [List.append_nil] at h1e
        rw [← h1e]
        exact hhead y hxy
      | cons z c'' =>
        simp only [List.cons_append, List.cons.injEq] at h2e
        rw [h2e.1] at hxy
        exact ih1' pre z c'' h1e y hxy

theorem diamond_acyclic (v : String) :
    ¬ Relation.TransGen (FromAdjacencyList diamondList).Edge v v := by
  intro hv
  have hlt : ∀ a b, Relation.TransGen (FromAdjacencyList diamondList).Edge a b →
      diamondRank b < diamondRank a := by
    intro a b hab
    induction hab with
    | single h => exact diamond_rank_edge _ _ h
    | tail _ h ih => exact lt_trans (diamond_rank_edge _ _ h) ih
  exact lt_irrefl _ (hlt v v hv)

/-- C18: on a directed graph built by `FromAdjacencyList`, in any enumeration order
of its maps, whose part reachable from the key `start` has no cycle, `DFS` returns
and visits in a reverse topological order: the visited keys are without repetition,
and for every edge `u -> v` out of a reachable `u`, `v` stands before `u` among
them. -/
theorem DFS_reverse_topological (adjList : AdjacencyList) (g : Graph) (start : String)
    (fuel : Nat) (hkind : adjList.Kind = Directed)
    (hg : g.SameMaps (FromAdjacencyList adjList)) (hs : start ∈ g.keys)
    (hac : ∀ v, g.Reachable start v → ¬ Relation.TransGen g.Edge v v)
    (hf : g.Vertices.length ≤ fuel) :
    ∃ g' calls ks, DFS fuel g start = .ok (g', calls) ∧
      List.Forall₂ (fun k n => g.node k = some n) ks calls ∧ ks.Nodup ∧
      ∀ u v, g.Reachable start u → g.Edge u v →
        ∃ pre post, ks = pre ++ u :: post ∧ v ∈ pre := by
  obtain ⟨d', h', ks, t, n, hrun, hn, hv, hx⟩ :=
    DFS_explore g (hg.kindOK (Or.inl hkind)) hg.built_closed start hs fuel hf
  obtain ⟨hnd, hreach⟩ := explore_start_reachable hn hx
  refine ⟨_, _, ks ++ [start], hrun, VisitedAt.append hv (VisitedAt.single hn), hnd, ?_⟩
  intro u v hur huv
  obtain ⟨pre, post, hp⟩ := List.append_of_mem ((hreach u).2 hur)
  refine ⟨pre, post, hp, ?_⟩
  rcases snoc_eq_append_cons hp with ⟨_, hua, hpre⟩ | ⟨post', _, hks⟩
  · rw [hua] at huv
    obtain ⟨m, hm, hvm⟩ := huv
    rw [hn] at hm
    cases hm
    rcases (hx.mem_iff v).1 (hx.children_mem v hvm) with hvs | hvk
    · exfalso
      rw [List.mem_singleton.1 hvs] at hvm
      exact hac start Relation.ReflTransGen.refl (Relation.TransGen.single ⟨n, hn, hvm⟩)
    · rw [hpre]
      exact hvk
  · have := hx.edges_back hac [] start Relation.ReflTransGen.refl
      (fun c hc => ⟨n, hn, hc⟩)
      (fun s hs _ => by rw [List.mem_singleton.1 hs]; exact Relation.ReflTransGen.refl)
      pre u post' hks v huv
    rcases this with h | h
    · cases h
    · exact h

/-- C18 at the directed graph built from `{A: [B, C], B: [C]}`, from `A`. -/
theorem DFS_reverse_topological_witness :
    ∃ g' calls ks, DFS 3 (FromAdjacencyList diamondList) "A" = .ok (g', calls) ∧
      List.Forall₂ (fun k n => (FromAdjacencyList diamondList).node k = some n) ks calls ∧
      ks.Nodup ∧
      ∀ u v, (FromAdjacencyList diamondList).Reachable "A" u →
        (FromAdjacencyList diamondList).Edge u v →
        ∃ pre post, ks = pre ++ u :: post ∧ v ∈ pre :=
  DFS_reverse_topological diamondList (FromAdjacencyList diamondList) "A" 3 rfl
    (Graph.SameMaps.refl _) (by decide) (fun v _ => diamond_acyclic v) (by decide)

/-! ### Termination -/

theorem dfs_kindless_loop (fuel : Nat) :
    dfs fuel (some { Name := "A", Children := ["A"] })
      ((FromAdjacencyList kindlessLoopList).during ["A"] false, []) = .outOfFuel := by
  induction fuel with
  | zero => rfl
  | succ f ih =>
    have hcond : ¬ ("A" ∈ ((FromAdjacencyList kindlessLoopList).during ["A"] false).discovered ∧
        (((FromAdjacencyList kindlessLoopList).during ["A"] false).Type_ = Undirected ∨
          (((FromAdjacencyList kindlessLoopList).during ["A"] false).Type_ = Directed ∧
            "A" ∉ ((FromAdjacencyList kindlessLoopList).during ["A"] false).visited))) := by
      decide
    have hstate : ({ (FromAdjacencyList kindlessLoopList).during ["A"] false with
        discovered := setAdd
          ((FromAdjacencyList kindlessLoopList).during ["A"] false).discovered "A" } : Graph)
        = (FromAdjacencyList kindlessLoopList).during ["A"] false := by
      decide
    have hnode : ((FromAdjacencyList kindlessLoopList).during ["A"] false).node "A"
        = some { Name := "A", Children := ["A"] } := by
      decide
    rw [dfs, dfsChildren_cons, if_neg hcond, hstate, hnode, ih]
    rfl

/-- C20: on a graph of kind Directed or Undirected in which every child name is a
key, `DFS` from a key returns once the fuel covers the number of vertices: the loop
of `dfs` does not descend into a child that is discovered, it descends into a child
that is not, and marking a key discovered lowers the number of undiscovered keys.
For another kind a discovered child is descended into again: on `{A: [A]}` with the
empty kind `DFS` from `A` returns with no amount of fuel. -/
theorem DFS_terminates (g : Graph) (hk : g.Type_ = Directed ∨ g.Type_ = Undirected)
    (hcl : ∀ u n, g.node u = some n → ∀ c ∈ n.Children, c ∈ g.keys) :
    (∀ start fuel, start ∈ g.keys → g.Vertices.length ≤ fuel →
      ∃ w, DFS fuel g start = .ok w) ∧
    (∀ (rec : Option Node → Graph × List Node → Res (Graph × List Node))
        (c : String) (cs d : List String) (h : Bool) (calls : List Node), c ∈ d →
      dfsChildren rec (c :: cs) (g.during d h, calls)
        = dfsChildren rec cs (g.during d true, calls)) ∧
    (∀ (rec : Option Node → Graph × List Node → Res (Graph × List Node))
        (c : String) (cs d : List String) (h : Bool) (calls : List Node), c ∉ d →
      dfsChildren rec (c :: cs) (g.during d h, calls)
        = (rec (g.node c) (g.during (d ++ [c]) h, calls)).bind (dfsChildren rec cs)) ∧
    (∀ c d, c ∈ g.keys → c ∉ d → g.undiscovered (d ++ [c]) < g.undiscovered d) ∧
    (∀ fuel, DFS fuel (FromAdjacencyList kindlessLoopList) "A" = .outOfFuel) := by
  have hcl' : g.Closed := fun u v ⟨n, hn, hv⟩ => hcl u n hn v hv
  refine ⟨?_, ?_, ?_, ?_, ?_⟩
  · intro start fuel hs hf
    obtain ⟨d', h', ks, t, n, hrun, _⟩ := DFS_explore g hk hcl' start hs fuel hf
    exact ⟨_, hrun⟩
  · intro rec c cs d h calls hc
    exact dfsChildren_seen g hk rec c cs d h calls hc
  · intro rec c cs d h calls hc
    exact dfsChildren_fresh g rec c cs d h calls hc
  · intro c d hc hd
    exact undiscovered_lt g d c hc hd
  · intro fuel
    have e : DFS fuel (FromAdjacencyList kindlessLoopList) "A"
        = dfs fuel (some { Name := "A", Children := ["A"] })
            ((FromAdjacencyList kindlessLoopList).during ["A"] false, []) := by
      rw [DFS_eq]
      rfl
    rw [e]
    exact dfs_kindless_loop fuel

/-- C20 at the graph of the DFS test. -/
theorem DFS_terminates_witness :
    (∀ start fuel, start ∈ testGraph.keys → testGraph.Vertices.length ≤ fuel →
      ∃ w, DFS fuel testGraph start = .ok w) ∧
    (∀ (rec : Option Node → Graph × List Node → Res (Graph × List Node))
        (c : String) (cs d : List String) (h : Bool) (calls : List Node), c ∈ d →
      dfsChildren rec (c :: cs) (testGraph.during d h, calls)
        = dfsChildren rec cs (testGraph.during d true, calls)) ∧
    (∀ (rec : Option Node → Graph × List Node → Res (Graph × List Node))
        (c : String) (cs d : List String) (h : Bool) (calls : List Node), c ∉ d →
      dfsChildren rec (c :: cs) (testGraph.during d h, calls)
        = (rec (testGraph.node c) (testGraph.during (d ++ [c]) h, calls)).bind
            (dfsChildren rec cs)) ∧
    (∀ c d, c ∈ testGraph.keys → c ∉ d →
      testGraph.undiscovered (d ++ [c]) < testGraph.undiscovered d) ∧
    (∀ fuel, DFS fuel (FromAdjacencyList kindlessLoopList) "A" = .outOfFuel) :=
  DFS_terminates testGraph (Or.inl rfl) (closed_of_closedCheck testGraph (by decide))

end graph
